import Mathlib

/-!
Verification development for the FamilyFlow assistant backend
(`backend/main.py`).

The Python module is shallowly embedded below.  The interesting logic is
`extract_action` / `clean_reply`, which work by applying a fixed list of
regular expressions (via `re.findall` / `re.sub`) to the model reply and
parsing candidate fragments with `json.loads`.  We model:

* a small backtracking regex engine (`reM`) covering exactly the regex
  features used by the four search patterns and the four substitution
  patterns of the source (literals with optional ASCII `IGNORECASE`
  folding, greedy star/plus/option of a character class, lazy `.*?`
  under `DOTALL`, one capture group, concatenation), with Python's
  leftmost, backtracking, first-success semantics;
* `re.findall`-style scanning (`findallRE`) and `re.sub`-style global
  substitution (`subAll`);
* the fragment of `json.loads` exercised by brace-delimited candidates
  (objects, arrays, strings with the standard escapes, integers,
  `true` / `false` / `null`, last-duplicate-wins keys, rejection of raw
  control characters and of leading zeros; non-integer numbers are
  outside the modelled fragment);
* Python truthiness for the parsed values, `str.strip`, `str.lower`
  (ASCII fragment), and the authentication / endpoint plumbing.
-/

/-- ASCII whitespace, as used by Python's `\s`, `str.strip()` and the
JSON grammar's interword space (all texts involved are ASCII). -/
def isWs (c : Char) : Bool :=
  c = ' ' || c = '\t' || c = '\n' || c = '\r' || c = '\x0b' || c = '\x0c'

/-- The left-brace character. -/
def lb : Char := '\x7b'

/-- The right-brace character. -/
def rb : Char := '\x7d'

/-- The backtick character. -/
def bt : Char := '\x60'

/-- The double-quote character. -/
def qu : Char := '"'

/-- Characters allowed by the `[^{}]` class of the source patterns. -/
def nonBrace (c : Char) : Bool := !(c = lb || c = rb)

/-- Characters allowed by the `[^"]` class of the source patterns. -/
def nonQuote (c : Char) : Bool := !(c = qu)

/-- Characters allowed by the backtick-excluding class of pattern (d). -/
def nonTick (c : Char) : Bool := !(c = bt)

/-- ASCII lower-casing, the fragment of Python `str.lower` (and of the
case folding performed by `re.IGNORECASE`) relevant to ASCII text. -/
def lowerChar (c : Char) : Char :=
  if 65 ≤ c.toNat ∧ c.toNat ≤ 90 then Char.ofNat (c.toNat + 32) else c

/-- Character comparison, optionally up to ASCII case folding. -/
def chEq (ci : Bool) (a b : Char) : Bool :=
  if ci then lowerChar a = lowerChar b else a = b

/-- Regular expressions, restricted to exactly the constructs appearing
in the eight patterns of `extract_action` and `clean_reply`. -/
inductive RE where
  | lit : List Char → Bool → RE
  | starCls : (Char → Bool) → RE
  | plusCls : (Char → Bool) → RE
  | quesCls : (Char → Bool) → RE
  | lazyStar : RE
  | grp : RE → RE
  | seq : RE → RE → RE

/-- Match a literal (with case-insensitivity flag) against a prefix of
the input, returning the rest of the input on success. -/
def litMatch (ci : Bool) : List Char → List Char → Option (List Char)
  | [], s => some s
  | _ :: _, [] => none
  | p :: ps, c :: cs => if chEq ci p c then litMatch ci ps cs else none

/-- Length of the maximal prefix of `s` whose characters satisfy `p`. -/
def runCls (p : Char → Bool) : List Char → Nat
  | [] => 0
  | c :: cs => if p c then runCls p cs + 1 else 0

/-- First success of `f` over a list of alternatives (backtracking order). -/
def firstSome {α β : Type} : List α → (α → Option β) → Option β
  | [], _ => none
  | x :: xs, f =>
    match f x with
    | some b => some b
    | none => firstSome xs f

/-- The list `[n, n-1, ..., 0]`: greedy star tries longest first. -/
def descend : Nat → List Nat
  | 0 => [0]
  | n + 1 => (n + 1) :: descend n

/-- The list `[n, n-1, ..., 1]`: greedy plus tries longest first. -/
def descend1 : Nat → List Nat
  | 0 => []
  | n + 1 => (n + 1) :: descend1 n

/-- The list `[0, 1, ..., n]`: lazy star tries shortest first. -/
def ascend : Nat → List Nat
  | 0 => [0]
  | n + 1 => ascend n ++ [n + 1]

/-- Backtracking matcher in continuation-passing style.  `cap` is the
current capture (at most one group occurs in the source patterns); the
continuation receives the remaining input and the capture.  The result
is the first success in Python's backtracking order: greedy operators
try the longest extent first, the lazy star tries the shortest. -/
def reM {β : Type} : RE → List Char → Option (List Char) →
    (List Char → Option (List Char) → Option β) → Option β
  | .lit cs ci, s, cap, k =>
    match litMatch ci cs s with
    | some rest => k rest cap
    | none => none
  | .starCls p, s, cap, k =>
    firstSome (descend (runCls p s)) fun l => k (s.drop l) cap
  | .plusCls p, s, cap, k =>
    firstSome (descend1 (runCls p s)) fun l => k (s.drop l) cap
  | .quesCls p, s, cap, k =>
    match s with
    | [] => k s cap
    | c :: cs =>
      if p c then
        match k cs cap with
        | some b => some b
        | none => k s cap
      else k s cap
  | .lazyStar, s, cap, k =>
    firstSome (ascend s.length) fun l => k (s.drop l) cap
  | .grp r, s, cap, k =>
    reM r s cap fun rest _ => k rest (some (s.take (s.length - rest.length)))
  | .seq a b, s, cap, k =>
    reM a s cap fun rest cap1 => reM b rest cap1 k

/-- Try to match `pat` at the start of `s`; on success return the number
of consumed characters and the capture, following the first success of
the backtracking order (Python's match at a fixed position). -/
def matchAt (pat : RE) (s : List Char) : Option (Nat × Option (List Char)) :=
  reM pat s none fun rest cap => some (s.length - rest.length, cap)

/-- The `re.findall` scan: try to match at every position from left to
right, emit the capture (or the whole match when the pattern has no
group), and continue after each match (advancing one character after an
empty match, as Python does).  Fuel-driven; `findallRE` supplies enough
fuel for the scan to complete. -/
def scanRE (pat : RE) : Nat → List Char → List (List Char)
  | 0, _ => []
  | _ + 1, [] =>
    match matchAt pat [] with
    | some (_, cap) => [cap.getD []]
    | none => []
  | f + 1, c :: s1 =>
    match matchAt pat (c :: s1) with
    | some (n, cap) =>
      cap.getD ((c :: s1).take n) ::
        (if n = 0 then scanRE pat f s1 else scanRE pat f ((c :: s1).drop n))
    | none => scanRE pat f s1

/-- `re.findall pat s` for the modelled patterns. -/
def findallRE (pat : RE) (s : List Char) : List (List Char) :=
  scanRE pat (s.length + 1) s

/-- The `re.sub` scan: replace every (leftmost, non-overlapping) match
of `pat` by `repl`, copying unmatched characters.  Fuel-driven. -/
def subAllGo (pat : RE) (repl : List Char) : Nat → List Char → List Char
  | 0, s => s
  | _ + 1, [] =>
    match matchAt pat [] with
    | some _ => repl
    | none => []
  | f + 1, c :: s1 =>
    match matchAt pat (c :: s1) with
    | some (n, _) =>
      if n = 0 then repl ++ c :: subAllGo pat repl f s1
      else repl ++ subAllGo pat repl f ((c :: s1).drop n)
    | none => c :: subAllGo pat repl f s1

/-- `re.sub pat repl s` for the modelled patterns. -/
def subAll (pat : RE) (repl : List Char) (s : List Char) : List Char :=
  subAllGo pat repl (s.length + 1) s

/-- Sequence a list of regex pieces (right-nested). -/
def seqAll : List RE → RE
  | [] => .lit [] false
  | [r] => r
  | r :: rs => .seq r (seqAll rs)

/-- The literal `"type"` with surrounding double quotes. -/
def typeLit : List Char := [qu, 't', 'y', 'p', 'e', qu]

/-- The literal `"action"` with surrounding double quotes. -/
def actionLit : List Char := [qu, 'a', 'c', 't', 'i', 'o', 'n', qu]

/-- Search pattern (a) of `extract_action`, compiled with
`re.DOTALL | re.IGNORECASE`:  a brace-delimited object with no inner
braces containing a `"type"` key with a non-empty string value. -/
def pat1 : RE :=
  seqAll [.lit [lb] false, .starCls nonBrace, .lit typeLit true,
          .starCls isWs, .lit [':'] false, .starCls isWs,
          .lit [qu] false, .plusCls nonQuote, .lit [qu] false,
          .starCls nonBrace, .lit [rb] false]

/-- Search pattern (b) of `extract_action`: as (a) but keyed `"action"`. -/
def pat2 : RE :=
  seqAll [.lit [lb] false, .starCls nonBrace, .lit actionLit true,
          .starCls isWs, .lit [':'] false, .starCls isWs,
          .lit [qu] false, .plusCls nonQuote, .lit [qu] false,
          .starCls nonBrace, .lit [rb] false]

/-- Search pattern (c) of `extract_action`: a brace-delimited group in a
fenced block labelled `json` (the label folds case under `IGNORECASE`;
`.*?` spans newlines under `DOTALL`). -/
def pat3 : RE :=
  seqAll [.lit [bt, bt, bt, 'j', 's', 'o', 'n'] true, .starCls isWs,
          .grp (seqAll [.lit [lb] false, .lazyStar, .lit [rb] false]),
          .starCls isWs, .lit [bt, bt, bt] false]

/-- Search pattern (d) of `extract_action`: a brace-delimited group in
single backticks. -/
def pat4 : RE :=
  seqAll [.lit [bt] false,
          .grp (seqAll [.lit [lb] false, .plusCls nonTick, .lit [rb] false]),
          .lit [bt] false]

/-- Substitution pattern 1 of `clean_reply` (case-sensitive): a fenced
`json` block around a brace-delimited fragment. -/
def sub1 : RE :=
  seqAll [.lit [bt, bt, bt, 'j', 's', 'o', 'n'] false, .starCls isWs,
          .lit [lb] false, .lazyStar, .lit [rb] false,
          .starCls isWs, .lit [bt, bt, bt] false]

/-- Substitution pattern 2 of `clean_reply`: a single-backtick-wrapped
brace-delimited fragment. -/
def sub2 : RE :=
  seqAll [.lit [bt] false, .lit [lb] false, .plusCls nonTick,
          .lit [rb] false, .lit [bt] false]

/-- Substitution pattern 3 of `clean_reply`: a standalone line holding a
bare object with a `"type"` key (requires a preceding newline). -/
def sub3 : RE :=
  seqAll [.lit ['\n'] false, .starCls isWs, .lit [lb] false,
          .starCls nonBrace, .lit typeLit false, .starCls isWs,
          .lit [':'] false, .starCls nonBrace, .lit [rb] false,
          .starCls isWs, .quesCls (fun c => c = '\n')]

/-- Substitution pattern 4 of `clean_reply`: three or more newlines. -/
def sub4 : RE :=
  seqAll [.lit ['\n', '\n', '\n'] false, .starCls (fun c => c = '\n')]

/-- JSON values, as produced by the modelled fragment of `json.loads`
(strings are of characters; numbers are restricted to integers, the
only numbers appearing in the specified action schemas). -/
inductive Json where
  | null : Json
  | bool : Bool → Json
  | num : Int → Json
  | str : List Char → Json
  | arr : List Json → Json
  | obj : List (List Char × Json) → Json

/-- Association-list lookup on parsed object members. -/
def assocGet : List (List Char × Json) → List Char → Option Json
  | [], _ => none
  | (k, v) :: rest, key => if k = key then some v else assocGet rest key

/-- Key membership on parsed object members. -/
def assocHas (l : List (List Char × Json)) (key : List Char) : Bool :=
  (assocGet l key).isSome

/-- Insert a member as Python's dict building does: an existing key is
overwritten in place, a new key is appended. -/
def assocInsert : List (List Char × Json) → List Char → Json →
    List (List Char × Json)
  | [], key, v => [(key, v)]
  | (k, w) :: rest, key, v =>
    if k = key then (k, v) :: rest else (k, w) :: assocInsert rest key v

/-- Remove a key, as Python's `dict.pop` does. -/
def assocRemove : List (List Char × Json) → List Char →
    List (List Char × Json)
  | [], _ => []
  | (k, w) :: rest, key =>
    if k = key then rest else (k, w) :: assocRemove rest key

/-- Whitespace skipped between JSON tokens (per Python's json module). -/
def jsonWs (c : Char) : Bool := c = ' ' || c = '\t' || c = '\n' || c = '\r'

/-- ASCII decimal digit test. -/
def isDigitCh (c : Char) : Bool := '0' ≤ c ∧ c ≤ '9'

/-- Value of a hexadecimal digit, if any. -/
def hexVal (c : Char) : Option Nat :=
  if '0' ≤ c ∧ c ≤ '9' then some (c.toNat - 48)
  else if 'a' ≤ c ∧ c ≤ 'f' then some (c.toNat - 87)
  else if 'A' ≤ c ∧ c ≤ 'F' then some (c.toNat - 55)
  else none

/-- Decode a single-character escape. -/
def escChar (e : Char) : Option Char :=
  if e = qu then some qu
  else if e = '\\' then some '\\'
  else if e = '/' then some '/'
  else if e = 'b' then some '\x08'
  else if e = 'f' then some '\x0c'
  else if e = 'n' then some '\n'
  else if e = 'r' then some '\r'
  else if e = 't' then some '\t'
  else none

/-- Decode four hexadecimal digits. -/
def hex4 (h1 h2 h3 h4 : Char) : Option Nat :=
  match hexVal h1, hexVal h2, hexVal h3, hexVal h4 with
  | some a, some b, some c1, some d => some ((((a * 16 + b) * 16 + c1) * 16 + d))
  | _, _, _, _ => none

mutual

/-- Parse the body of a JSON string after the opening quote: standard
escapes, `\uXXXX` (surrogate pairing not modelled), raw control
characters rejected as in Python's strict mode. -/
def parseJStr : List Char → List Char → Option (List Char × List Char)
  | _, [] => none
  | acc, c :: cs =>
    if c = qu then some (acc.reverse, cs)
    else if c = '\\' then parseJEsc acc cs
    else if c.toNat < 32 then none
    else parseJStr (c :: acc) cs

/-- Parse the remainder of an escape sequence after the backslash. -/
def parseJEsc : List Char → List Char → Option (List Char × List Char)
  | _, [] => none
  | acc, 'u' :: h1 :: h2 :: h3 :: h4 :: cs2 =>
    match hex4 h1 h2 h3 h4 with
    | some n => parseJStr (Char.ofNat n :: acc) cs2
    | none => none
  | acc, e :: cs1 =>
    match escChar e with
    | some r => parseJStr (r :: acc) cs1
    | none => none

end

/-- Parse a run of decimal digits. -/
def parseDigits : List Char → List Char → (List Char × List Char)
  | acc, c :: cs =>
    if isDigitCh c then parseDigits (c :: acc) cs else (acc.reverse, c :: cs)
  | acc, [] => (acc.reverse, [])

/-- Numeric value of a digit list. -/
def digitsVal : List Char → Nat → Nat
  | [], acc => acc
  | c :: cs, acc => digitsVal cs (acc * 10 + (c.toNat - 48))

/-- Parse a JSON integer (Python's json rejects leading zeros; numbers
with a fraction or exponent are outside the modelled fragment and fail
the parse). -/
def parseJNum (s : List Char) : Option (Int × List Char) :=
  let neg := s.head? = some '-'
  let s1 := if neg then s.drop 1 else s
  match parseDigits [] s1 with
  | ([], _) => none
  | (ds, rest) =>
    if ds.length > 1 ∧ ds.head? = some '0' then none
    else if rest.head? = some '.' ∨ rest.head? = some 'e' ∨ rest.head? = some 'E' then none
    else some (if neg then -(digitsVal ds 0 : Int) else (digitsVal ds 0 : Int), rest)

mutual

/-- Parse one JSON value at the head of the input (no leading space).
Fuel-driven; `json_loads` supplies enough fuel, which every recursive
call decrements. -/
def parseValue : Nat → List Char → Option (Json × List Char)
  | _, [] => none
  | 0, _ :: _ => none
  | fuel + 1, c :: cs =>
    if c = qu then
      match parseJStr [] cs with
      | some (str, rest) => some (.str str, rest)
      | none => none
    else if c = lb then
      parseMembers fuel [] (cs.dropWhile jsonWs) true
    else if c = '[' then
      parseElems fuel [] (cs.dropWhile jsonWs) true
    else if c = 't' then
      if cs.take 3 = ['r', 'u', 'e'] then some (.bool true, cs.drop 3) else none
    else if c = 'f' then
      if cs.take 4 = ['a', 'l', 's', 'e'] then some (.bool false, cs.drop 4) else none
    else if c = 'n' then
      if cs.take 3 = ['u', 'l', 'l'] then some (.null, cs.drop 3) else none
    else if c = '-' ∨ isDigitCh c then
      match parseJNum (c :: cs) with
      | some (n, rest) => some (.num n, rest)
      | none => none
    else none

/-- Parse object members after the opening brace (whitespace already
skipped); `first` is true before the first member. -/
def parseMembers : Nat → List (List Char × Json) → List Char → Bool →
    Option (Json × List Char)
  | 0, _, _, _ => none
  | _ + 1, _, [], _ => none
  | fuel + 1, acc, c :: cs, first =>
    if c = rb ∧ first then some (.obj acc, cs)
    else if c = qu then
      match parseJStr [] cs with
      | none => none
      | some (key, rest1) =>
        if (rest1.dropWhile jsonWs).head? = some ':' then
          match parseValue fuel (((rest1.dropWhile jsonWs).tail).dropWhile jsonWs) with
          | none => none
          | some (v, rest3) =>
            if (rest3.dropWhile jsonWs).head? = some ',' then
              parseMembers fuel (assocInsert acc key v)
                (((rest3.dropWhile jsonWs).tail).dropWhile jsonWs) false
            else if (rest3.dropWhile jsonWs).head? = some rb then
              some (.obj (assocInsert acc key v), (rest3.dropWhile jsonWs).tail)
            else none
        else none
    else none

/-- Parse array elements after the opening bracket (whitespace already
skipped); `first` is true before the first element. -/
def parseElems : Nat → List Json → List Char → Bool →
    Option (Json × List Char)
  | 0, _, _, _ => none
  | _ + 1, _, [], _ => none
  | fuel + 1, acc, c :: cs, first =>
    if c = ']' ∧ first then some (.arr acc.reverse, cs)
    else
      match parseValue fuel (c :: cs) with
      | none => none
      | some (v, rest) =>
        if (rest.dropWhile jsonWs).head? = some ',' then
          parseElems fuel (v :: acc) (((rest.dropWhile jsonWs).tail).dropWhile jsonWs) false
        else if (rest.dropWhile jsonWs).head? = some ']' then
          some (.arr (v :: acc).reverse, (rest.dropWhile jsonWs).tail)
        else none

end

/-- The modelled `json.loads`: skip surrounding whitespace, parse one
value, fail on trailing data (as Python does).  The fuel bound suffices
for any input because every parser step consumes input or fuel. -/
def json_loads (s : List Char) : Option Json :=
  let t := s.dropWhile jsonWs
  match parseValue (2 * t.length + 2) t with
  | some (v, rest) => if rest.dropWhile jsonWs = [] then some v else none
  | none => none

/-- Python `str.strip()` (ASCII whitespace fragment). -/
def pyStrip (s : List Char) : List Char :=
  ((s.dropWhile isWs).reverse.dropWhile isWs).reverse

/-- Python truthiness of a parsed JSON value (`None`, `False`, `0`,
empty string, empty list and empty dict are falsy). -/
def jTruthy : Json → Bool
  | .null => false
  | .bool b => b
  | .num n => n ≠ 0
  | .str s => s ≠ []
  | .arr l => !l.isEmpty
  | .obj l => !l.isEmpty

/-- Python's `a or b` over the results of `dict.get` (a falsy or missing
first operand falls through to the second). -/
def pyOr (a b : Option Json) : Option Json :=
  match a with
  | some v => if jTruthy v then some v else b
  | none => b

/-- Lookup on a parsed value, as `dict.get` (none on non-objects, which
cannot occur for accepted candidates). -/
def jGet : Json → List Char → Option Json
  | .obj l, key => assocGet l key
  | _, _ => none

/-- Key membership on a parsed value. -/
def jHas (j : Json) (key : List Char) : Bool := (jGet j key).isSome

/-- The key `type` (no quotes). -/
def typeKey : List Char := ['t', 'y', 'p', 'e']

/-- The key `action` (no quotes). -/
def actionKey : List Char := ['a', 'c', 't', 'i', 'o', 'n']

/-- Key removal on a parsed value (`dict.pop`; non-objects unchanged,
which cannot occur for accepted candidates). -/
def jRemove : Json → List Char → Json
  | .obj l, k => .obj (assocRemove l k)
  | j, _ => j

/-- Key assignment on a parsed value (non-objects unchanged). -/
def jInsert : Json → List Char → Json → Json
  | .obj l, k, v => .obj (assocInsert l k v)
  | j, _, _ => j

/-- The renaming step of `extract_action`: if the object carries
`action` but not `type`, pop `action` and assign its value to `type`
(appended, since the key is absent). -/
def normalizeAction (j : Json) : Json :=
  if jHas j actionKey ∧ ¬ jHas j typeKey then
    match jGet j actionKey with
    | some v => jInsert (jRemove j actionKey) typeKey v
    | none => j
  else j

/-- Processing of one textual candidate in `extract_action`: strip it,
require a leading brace, parse it as JSON (a parse failure skips the
candidate, mirroring the `except JSONDecodeError: continue`), and
accept only if `parsed.get("type") or parsed.get("action")` is a
non-empty string, returning the renamed object. -/
def tryCandidate (m : List Char) : Option Json :=
  let js := pyStrip m
  if js.head? = some lb then
    match json_loads js with
    | none => none
    | some parsed =>
      match pyOr (jGet parsed typeKey) (jGet parsed actionKey) with
      | some (.str s) => if s ≠ [] then some (normalizeAction parsed) else none
      | _ => none
  else none

/-- First candidate that is accepted, in order. -/
def firstAccepted : List (List Char) → Option Json
  | [] => none
  | m :: ms =>
    match tryCandidate m with
    | some j => some j
    | none => firstAccepted ms

/-- All candidates, in the order the source inspects them: every match
of pattern (a), then of (b), then of (c), then of (d). -/
def allCandidates (s : List Char) : List (List Char) :=
  findallRE pat1 s ++ findallRE pat2 s ++ findallRE pat3 s ++ findallRE pat4 s

/-- The embedded `extract_action`. -/
def extract_action (t : String) : Option Json :=
  firstAccepted (allCandidates t.data)

/-- The embedded `clean_reply`: the four substitutions in source order,
then a final strip. -/
def clean_reply_chars (s : List Char) : List Char :=
  pyStrip (subAll sub4 ['\n', '\n']
    (subAll sub3 ['\n'] (subAll sub2 [] (subAll sub1 [] s))))

/-- The embedded `clean_reply` on strings. -/
def clean_reply (t : String) : String :=
  ⟨clean_reply_chars t.data⟩

/-- Substring test (`needle in haystack` of Python). -/
def containsSeq (needle hay : List Char) : Bool :=
  match hay with
  | [] => needle.isEmpty
  | _ :: t => if needle.isPrefixOf hay then true else containsSeq needle t

/-- Python `str.strip()` on strings. -/
def pyStripS (s : String) : String := ⟨pyStrip s.data⟩

/-- ASCII `str.lower()` on strings. -/
def pyLowerS (s : String) : String := ⟨s.data.map lowerChar⟩

/-- Calendar date, standing for the date part of `datetime.now()`. -/
structure PyDate where
  year : Nat
  month : Nat
  day : Nat

/-- Gregorian leap-year rule (as `datetime` uses). -/
def isLeapYear (y : Nat) : Bool := y % 4 = 0 && (y % 100 ≠ 0 || y % 400 = 0)

/-- Days in a month. -/
def daysInMonth (y m : Nat) : Nat :=
  if m = 2 then (if isLeapYear y then 29 else 28)
  else if m = 4 ∨ m = 6 ∨ m = 9 ∨ m = 11 then 30
  else 31

/-- The date one day later, as `datetime + timedelta(days=1)` yields
(the source first truncates the time to midnight, which cannot change
the resulting date). -/
def nextDay (d : PyDate) : PyDate :=
  if d.day < daysInMonth d.year d.month then ⟨d.year, d.month, d.day + 1⟩
  else if d.month < 12 then ⟨d.year, d.month + 1, 1⟩
  else ⟨d.year + 1, 1, 1⟩

/-- Zero-padded two-digit rendering, as `strftime %m` / `%d`. -/
def pad2 (n : Nat) : String := if n < 10 then "0" ++ toString n else toString n

/-- Zero-padded four-digit rendering, as `strftime %Y`. -/
def pad4 (n : Nat) : String :=
  if n < 10 then "000" ++ toString n
  else if n < 100 then "00" ++ toString n
  else if n < 1000 then "0" ++ toString n
  else toString n

/-- `strftime("%Y-%m-%d")`. -/
def fmtDate (d : PyDate) : String :=
  pad4 d.year ++ "-" ++ pad2 d.month ++ "-" ++ pad2 d.day

/-- Segment 0 of the system prompt f-string template (between interpolations). -/
def promptPart0 : String :=
  "You are a helpful homeschool assistant for FamilyFlow.\n\nTODAY\x27S DATE: "

/-- Segment 1 of the system prompt f-string template (between interpolations). -/
def promptPart1 : String :=
  "\n\nYou help parents manage their homeschool by:\n- Adding assignments for students\n- Adding new students and subjects\n- Answering questions about their data\n- Setting the teacher\x27s mood\n\nAVAILABLE ACTIONS (respond with JSON when the user wants to do something):\n\n1. ADD ASSIGNMENT (single student):\n   \x7b\"type\": \"add_assignment\", \"studentName\": \"William\", \"subjectName\": \"Math\", \"name\": \"Chapter 5 Review\", \"dueDate\": \""

/-- Segment 2 of the system prompt f-string template (between interpolations). -/
def promptPart2 : String :=
  "\"\x7d\n\n2. ADD STUDENT:\n   \x7b\"type\": \"add_student\", \"name\": \"Emma\", \"age\": 10, \"gradeLevel\": \"5th\"\x7d\n\n3. ADD SUBJECT:\n   \x7b\"type\": \"add_subject\", \"name\": \"Latin\"\x7d\n\n4. SET TEACHER MOOD:\n   \x7b\"type\": \"set_teacher_mood\", \"mood\": \"😊\"\x7d\n   Valid moods: 😫 😔 😐 😊 🔥 (or null to clear)\n\n5. COMPLETE ASSIGNMENT:\n   \x7b\"type\": \"complete_assignment\", \"assignmentId\": \"abc123\", \"grade\": 95\x7d\n\n6. DELETE ASSIGNMENT:\n   \x7b\"type\": \"delete_assignment\", \"assignmentId\": \"abc123\"\x7d\n\nRESPONSE FORMAT:\n- For questions: Just respond naturally with helpful text\n- For commands: Include BOTH a friendly reply AND the JSON action\n- Put the JSON action on its own line, clearly visible\n\nIMPORTANT RULES:\n- Use student and subject NAMES, not IDs (the app will resolve them)\n- For dates: Use YYYY-MM-DD format\n- If user says \"due tomorrow\", use dueDate: \""

/-- Segment 3 of the system prompt f-string template (between interpolations). -/
def promptPart3 : String :=
  "\"\n- If user says \"due today\", use dueDate: \""

/-- Segment 4 of the system prompt f-string template (between interpolations). -/
def promptPart4 : String :=
  "\"\n- Be concise and friendly\n- If you\x27re unsure what the user wants, ask for clarification\n"

/-- Segment 0 of the context section of the template. -/
def ctxPart0 : String :=
  "\n\nCURRENT DATA IN THE APP:\n"

/-- Segment 1 of the context section of the template. -/
def ctxPart1 : String :=
  "\n\nUse this information to:\n- Reference students/subjects by their exact names\n- Know which assignments already exist\n- Answer questions about completion rates, grades, etc.\n"

/-- The embedded `build_system_prompt`, parameterised by the current
date (the source reads it from `datetime.now()`); the interpolations
follow the f-string of the source: today, today, tomorrow, today, and
the optional context section is appended verbatim (the source guards
it with `if context:`, whose truthiness also skips an empty string). -/
def build_system_prompt (today : PyDate) (context : Option String) : String :=
  let t := fmtDate today
  let tm := fmtDate (nextDay today)
  promptPart0 ++ t ++ promptPart1 ++ t ++ promptPart2 ++ tm ++ promptPart3 ++ t ++
    promptPart4 ++
    (match context with
     | some ctx => if ctx.data = [] then "" else ctxPart0 ++ ctx ++ ctxPart1
     | none => "")

/-- Behaviour of the external model provider for one call: either a
successful response (a list of content blocks, `none` for a block
without a `text` attribute) or one of the two caught exception kinds,
carrying its rendered description `str(e)`. -/
inductive ProviderResult where
  | success (blocks : List (Option String)) : ProviderResult
  | apiError (msg : String) : ProviderResult
  | unexpectedError (msg : String) : ProviderResult

/-- Concatenate the text of the blocks that have one. -/
def concatBlocks : List (Option String) → String
  | [] => ""
  | some t :: bs => t ++ concatBlocks bs
  | none :: bs => concatBlocks bs

/-- Python truthiness of the extracted action (`None` or a dict). -/
def pyTruthyAction : Option Json → Bool
  | none => false
  | some j => jTruthy j

/-- The embedded `call_claude`: missing key short-circuits; a successful
provider response is concatenated, the action extracted, the reply
cleaned when an action was found, and stripped; the two caught error
kinds are rendered into an apologetic reply with no action. -/
def call_claude (apiKey : String) (message : String) (context : Option String)
    (provider : ProviderResult) : String × Option Json :=
  if apiKey = "" then
    ("Sorry, the assistant is not configured. Please set the API key.", none)
  else
    match provider with
    | .success blocks =>
      let replyText := concatBlocks blocks
      let action := extract_action replyText
      let replyText2 := if pyTruthyAction action then clean_reply replyText else replyText
      (pyStripS replyText2, action)
    | .apiError e => ("Sorry, there was an API error: " ++ e, none)
    | .unexpectedError e => ("Sorry, something went wrong: " ++ e, none)

/-- Verified token claims, as returned by the external issuer. -/
structure Claims where
  iss : Option String
  user_id : Option String
  sub : Option String
  email : Option String

/-- Drop everything up to and including the first space, the effect of
`split(" ", 1)[1]` (total model; the callers guarantee a space). -/
def dropThroughSpace : List Char → List Char
  | [] => []
  | c :: cs => if c = ' ' then cs else dropThroughSpace cs

/-- The embedded `require_firebase_user`.  `verify` is the external
issuer oracle (`None` models any verification exception, whose contents
are only logged).  An empty header string is falsy in Python and takes
the missing-header branch. -/
def require_firebase_user (projectId : String) (verify : String → Option Claims)
    (authorization : Option String) : Except (Nat × String) Claims :=
  match authorization with
  | none => .error (401, "Missing Authorization header.")
  | some auth =>
    if auth = "" then .error (401, "Missing Authorization header.")
    else if ¬ ("bearer ".data.isPrefixOf (pyLowerS auth).data) then
      .error (401, "Authorization must be: Bearer <token>")
    else
      let token := pyStripS ⟨dropThroughSpace auth.data⟩
      if token = "" then .error (401, "Empty bearer token.")
      else
        match verify token with
        | none => .error (401, "Invalid Firebase ID token.")
        | some claims =>
          if projectId ≠ "" then
            if claims.iss ≠ some ("https://securetoken.google.com/" ++ projectId) then
              .error (401, "Token project mismatch.")
            else .ok claims
          else .ok claims

/-- The chat request body. -/
structure ChatRequest where
  text : String
  familyId : Option String
  userId : Option String
  userEmail : Option String
  context : Option String

/-- The chat response body. -/
structure ChatResponse where
  reply : String
  action : Option Json

/-- The embedded `/assistant/chat` endpoint: the authentication
dependency runs first (its failure is the response), then the
empty-text validation, then the model call. -/
def assistant_chat (projectId : String) (verify : String → Option Claims)
    (apiKey : String) (provider : ProviderResult)
    (authorization : Option String) (req : ChatRequest) :
    Except (Nat × String) ChatResponse :=
  match require_firebase_user projectId verify authorization with
  | .error e => .error e
  | .ok _ =>
    if pyStripS req.text = "" then .error (400, "Message text is required")
    else
      let ra := call_claude apiKey req.text req.context provider
      .ok ⟨ra.1, ra.2⟩

/-- Characters that may appear in a key or value of the reply families
below: no quote, no braces, no backtick, no backslash, no control
characters.  (These are the characters for which both the regex classes
and the JSON string grammar are transparent.) -/
def plainChar (c : Char) : Bool :=
  c ≠ qu && c ≠ lb && c ≠ rb && c ≠ bt && c ≠ '\\' && 32 ≤ c.toNat

/-- Patterns with no capture group. -/
def hasGrp : RE → Bool
  | .grp _ => true
  | .seq a b => hasGrp a || hasGrp b
  | _ => false

/-- The word `type`. -/
def tWord : List Char := ['t', 'y', 'p', 'e']

/-- The word `action`. -/
def aWord : List Char := ['a', 'c', 't', 'i', 'o', 'n']

/-- The rendering `"w": "` opening a single-member object. -/
def kwIntro (w : List Char) : List Char := qu :: w ++ [qu, ':', ' ', qu]

/-- The rendering of a one-member object with key `w` and value `X`. -/
def kwObj (w X : List Char) : List Char := lb :: kwIntro w ++ X ++ [qu, rb]

/-- The rendering `"child": ` heading the nested-object family. -/
def childPart : List Char := [qu, 'c', 'h', 'i', 'l', 'd', qu, ':', ' ']

/-- The inner object `\x7b"k": "v"\x7d` of the nested-object family. -/
def innerObj : List Char := [lb, qu, 'k', qu, ':', ' ', qu, 'v', qu, rb]

/-- The rendering of a nested object
`\x7b"child": \x7b"k": "v"\x7d, "type": "X"\x7d`: a JSON object holding
another JSON object, so that the no-inner-brace patterns cannot span
it. -/
def nestedObj (X : List Char) : List Char :=
  lb :: childPart ++ innerObj ++ [',', ' '] ++ kwIntro tWord ++ X ++ [qu, rb]

/-- If `firstAccepted` yields a value, some listed candidate produced it. -/
theorem firstAccepted_eq_some {l : List (List Char)} {j : Json}
    (h : firstAccepted l = some j) : ∃ m, m ∈ l ∧ tryCandidate m = some j := by
  induction l with
  | nil => simp [firstAccepted] at h
  | cons m ms ih =>
    rw [firstAccepted] at h
    cases hm : tryCandidate m with
    | some j2 =>
      rw [hm] at h
      simp only [Option.some.injEq] at h
      exact ⟨m, List.mem_cons_self m ms, by rw [hm, h]⟩
    | none =>
      rw [hm] at h
      obtain ⟨m2, hmem, hm2⟩ := ih h
      exact ⟨m2, List.mem_cons_of_mem m hmem, hm2⟩

/-- Inserting a key makes it retrievable. -/
theorem assocGet_insert_self (l : List (List Char × Json)) (k : List Char) (v : Json) :
    assocGet (assocInsert l k v) k = some v := by
  induction l with
  | nil => simp [assocInsert, assocGet]
  | cons p rest ih =>
    by_cases hk : p.1 = k
    · simp [assocInsert, hk, assocGet]
    · simp [assocInsert, hk, assocGet, ih]

/-- An accepted candidate always carries a `type` key and owes its
acceptance to a non-empty string under `type` or `action`. -/
theorem tryCandidate_some {m : List Char} {j : Json} (h : tryCandidate m = some j) :
    jHas j typeKey = true ∧
      ∃ s, s ≠ [] ∧ (jGet j typeKey = some (.str s) ∨ jGet j actionKey = some (.str s)) := by
  simp only [tryCandidate] at h
  split at h
  case isFalse => exact absurd h (by simp)
  case isTrue hh =>
  split at h
  case h_1 => exact absurd h (by simp)
  case h_2 parsed hp =>
  split at h
  case h_2 => exact absurd h (by simp)
  case h_1 s hor =>
  split at h
  case isFalse => exact absurd h (by simp)
  case isTrue hs =>
  simp only [Option.some.injEq] at h
  subst h
  cases hgt : jGet parsed typeKey with
  | some w =>
    simp only [pyOr.eq_def, hgt] at hor
    by_cases htw : jTruthy w
    · rw [if_pos htw] at hor
      have hw : w = Json.str s := by simpa using hor
      subst hw
      have hhas : jHas parsed typeKey = true := by simp [jHas, hgt]
      rw [normalizeAction, if_neg (by simp [hhas])]
      exact ⟨hhas, s, hs, Or.inl hgt⟩
    · rw [if_neg htw] at hor
      have hhas : jHas parsed typeKey = true := by simp [jHas, hgt]
      rw [normalizeAction, if_neg (by simp [hhas])]
      exact ⟨hhas, s, hs, Or.inr hor⟩
  | none =>
    simp only [pyOr.eq_def, hgt] at hor
    have hhasA : jHas parsed actionKey = true := by simp [jHas, hor]
    have hhasT : jHas parsed typeKey = false := by simp [jHas, hgt]
    rw [normalizeAction, if_pos (by simp [hhasA, hhasT]), hor]
    cases parsed with
    | obj l =>
      have hl : assocGet l actionKey = some (Json.str s) := by
        simpa [jGet] using hor
      refine ⟨?_, s, hs, Or.inl ?_⟩
      · simp [jHas, jGet, jInsert, jRemove, assocGet_insert_self]
      · simp [jGet, jInsert, jRemove, assocGet_insert_self]
    | null => simp [jGet] at hor
    | bool b => simp [jGet] at hor
    | num n => simp [jGet] at hor
    | str s2 => simp [jGet] at hor
    | arr a => simp [jGet] at hor

/-- C5: for every input text, whenever `extract_action` returns an
object, it was accepted only because, after JSON parsing, it had a
non-empty string value under the `type` or the `action` key, and the
returned object always carries a `type` key. -/
theorem c5_acceptance_invariant (t : String) (j : Json)
    (h : extract_action t = some j) :
    jHas j typeKey = true ∧
      ∃ s, s ≠ [] ∧ (jGet j typeKey = some (.str s) ∨ jGet j actionKey = some (.str s)) := by
  have h2 : firstAccepted (allCandidates t.data) = some j := h
  obtain ⟨m, _, hm⟩ := firstAccepted_eq_some h2
  exact tryCandidate_some hm

/-- Witness for C5 at a concrete reply. -/
theorem c5_witness :
    jHas (Json.obj [(typeKey, Json.str ['x'])]) typeKey = true ∧
      ∃ s, s ≠ [] ∧
        (jGet (Json.obj [(typeKey, Json.str ['x'])]) typeKey = some (.str s) ∨
         jGet (Json.obj [(typeKey, Json.str ['x'])]) actionKey = some (.str s)) :=
  c5_acceptance_invariant "\x7b\"type\": \"x\"\x7d" (Json.obj [(typeKey, Json.str ['x'])]) rfl

/-- C10: `extract_action` is total over arbitrary input strings: it
terminates and returns either none or a parsed object (parse failures
are skipped inside `tryCandidate`, never propagated). -/
theorem c10_extract_action_total (t : String) :
    extract_action t = none ∨ ∃ j, extract_action t = some j := by
  cases h : extract_action t with
  | none => exact Or.inl rfl
  | some j => exact Or.inr ⟨j, rfl⟩

/-- C2: with a configured key, any provider-level error is caught and
rendered into the returned reply string (which embeds the error's
description) with no action; `call_claude` always returns a pair and
never propagates a failure. -/
theorem c2_call_claude_absorbs_provider_errors (key msg message : String)
    (ctx : Option String) (hk : key ≠ "") :
    call_claude key message ctx (.apiError msg) =
      ("Sorry, there was an API error: " ++ msg, none) ∧
    call_claude key message ctx (.unexpectedError msg) =
      ("Sorry, something went wrong: " ++ msg, none) ∧
    ∀ pr : ProviderResult, ∃ r : String × Option Json, call_claude key message ctx pr = r := by
  refine ⟨?_, ?_, fun pr => ⟨_, rfl⟩⟩ <;> simp [call_claude, hk]

/-- Witness for C2 at a concrete error message. -/
theorem c2_witness :
    call_claude "k" "m" none (.apiError "boom") =
      ("Sorry, there was an API error: " ++ "boom", none) ∧
    call_claude "k" "m" none (.unexpectedError "boom") =
      ("Sorry, something went wrong: " ++ "boom", none) ∧
    ∀ pr : ProviderResult, ∃ r : String × Option Json, call_claude "k" "m" none pr = r :=
  c2_call_claude_absorbs_provider_errors "k" "boom" "m" none (by decide)

/-- C7 (amended): every authentication failure yields status 401; the
status is uniform, though the detail message varies with the cause. -/
theorem c7_amended_auth_failures_all_401 (projectId : String)
    (verify : String → Option Claims) (authorization : Option String)
    (e : Nat × String) (h : require_firebase_user projectId verify authorization = .error e) :
    e.1 = 401 := by
  cases authorization with
  | none =>
    simp only [require_firebase_user, Except.error.injEq] at h
    rw [← h]
  | some a =>
    simp only [require_firebase_user] at h
    repeat' split at h
    all_goals
      first
        | (simp only [Except.error.injEq] at h; rw [← h])
        | (exact absurd h (by simp))

/-- Witness for C7 at a concrete failing input. -/
theorem c7_witness : ((401 : Nat), "Missing Authorization header.").1 = 401 :=
  c7_amended_auth_failures_all_401 "" (fun _ => none) none
    (401, "Missing Authorization header.") rfl

/-- C7 counterexample to the claim as stated: two authentication
failures of different causes both yield 401 but with different detail
messages, so there is no single uniform message. -/
theorem c7_counterexample :
    require_firebase_user "" (fun _ => none) none =
      .error (401, "Missing Authorization header.") ∧
    require_firebase_user "" (fun _ => none) (some "Bearer abc") =
      .error (401, "Invalid Firebase ID token.") ∧
    "Missing Authorization header." ≠ "Invalid Firebase ID token." :=
  ⟨rfl, rfl, by decide⟩

/-- C8 (amended): for an authenticated request, empty-after-trim text
yields HTTP 400 (with an invalid credential the 401 of the
authentication dependency is returned instead, see the
counterexample). -/
theorem c8_amended_empty_text_400_when_authenticated (projectId key : String)
    (verify : String → Option Claims) (provider : ProviderResult)
    (authorization : Option String) (req : ChatRequest) (claims : Claims)
    (hauth : require_firebase_user projectId verify authorization = .ok claims)
    (hempty : pyStripS req.text = "") :
    assistant_chat projectId verify key provider authorization req =
      .error (400, "Message text is required") := by
  unfold assistant_chat
  rw [hauth]
  simp [hempty]

/-- Witness for C8 at a concrete authenticated empty-text request. -/
theorem c8_witness :
    assistant_chat "" (fun _ => some ⟨none, none, none, none⟩) "k" (.success [])
      (some "Bearer t") ⟨" ", none, none, none, none⟩ =
      .error (400, "Message text is required") :=
  c8_amended_empty_text_400_when_authenticated "" "k"
    (fun _ => some ⟨none, none, none, none⟩) (.success []) (some "Bearer t")
    ⟨" ", none, none, none, none⟩ ⟨none, none, none, none⟩ rfl rfl

/-- C8 counterexample to the claim as stated: with an invalid (missing)
credential and empty text the endpoint answers 401, not 400, so the 400
is not independent of authentication validity. -/
theorem c8_counterexample :
    assistant_chat "" (fun _ => none) "k" (.success []) none
      ⟨"", none, none, none, none⟩ = .error (401, "Missing Authorization header.") ∧
    ((401 : Nat), "Missing Authorization header.") ≠
      ((400 : Nat), "Message text is required") :=
  ⟨rfl, by decide⟩

set_option maxRecDepth 10000

/-- C9: with current date 2025-06-10, the built instruction text
resolves the "due tomorrow" rule to the literal 2025-06-11 and the
"due today" rule to the literal 2025-06-10. -/
theorem c9_prompt_dates :
    containsSeq "- If user says \"due tomorrow\", use dueDate: \"2025-06-11\"".data
      (build_system_prompt ⟨2025, 6, 10⟩ none).data = true ∧
    containsSeq "- If user says \"due today\", use dueDate: \"2025-06-10\"".data
      (build_system_prompt ⟨2025, 6, 10⟩ none).data = true := by
  constructor <;> decide

/-- A valid scalar below the surrogate range round-trips through
`Char.ofNat`. -/
theorem toNat_ofNat_of_lt (m : Nat) (h : m < 55296) : (Char.ofNat m).toNat = m := by
  have hv : m.isValidChar := Or.inl h
  rw [Char.ofNat, dif_pos hv]
  rfl

/-- `lowerChar` can only reach a character outside the lower-case
letter range from that character itself. -/
theorem lowerChar_eq_of {c d : Char} (hd : ¬(97 ≤ d.toNat ∧ d.toNat ≤ 122))
    (h : lowerChar c = d) : c = d := by
  rw [lowerChar] at h
  split at h
  · exfalso
    apply hd
    rw [← h]
    rename_i hr
    rw [toNat_ofNat_of_lt (c.toNat + 32) (by omega)]
    omega
  · exact h

/-- A pattern character that is neither an upper- nor lower-case ASCII
letter only `chEq`-matches itself. -/
theorem chEq_false_of_ne (ci : Bool) (d c : Char)
    (hd97 : ¬(97 ≤ d.toNat ∧ d.toNat ≤ 122)) (hdl : lowerChar d = d)
    (hne : c ≠ d) : chEq ci d c = false := by
  cases ci with
  | true =>
    have he : chEq true d c = decide (lowerChar d = lowerChar c) := by simp [chEq]
    rw [he, hdl]
    simp only [decide_eq_false_iff_not]
    intro h
    exact hne (lowerChar_eq_of hd97 h.symm)
  | false =>
    have he : chEq false d c = decide (d = c) := by simp [chEq]
    rw [he]
    simp only [decide_eq_false_iff_not]
    intro h
    exact hne h.symm

/-- Unpack `plainChar`. -/
theorem plainChar_spec {c : Char} (h : plainChar c = true) :
    c ≠ qu ∧ c ≠ lb ∧ c ≠ rb ∧ c ≠ bt ∧ c ≠ '\\' ∧ 32 ≤ c.toNat := by
  simp only [plainChar, Bool.and_eq_true, decide_eq_true_eq, ne_eq] at h
  exact ⟨h.1.1.1.1.1, h.1.1.1.1.2, h.1.1.1.2, h.1.1.2, h.1.2, h.2⟩

/-- A plain character never `chEq`-matches a quote. -/
theorem chEq_qu_plain (ci : Bool) {c : Char} (h : plainChar c = true) :
    chEq ci qu c = false :=
  chEq_false_of_ne ci qu c (by decide) (by decide) (plainChar_spec h).1

/-- A plain character never `chEq`-matches a left brace. -/
theorem chEq_lb_plain (ci : Bool) {c : Char} (h : plainChar c = true) :
    chEq ci lb c = false :=
  chEq_false_of_ne ci lb c (by decide) (by decide) (plainChar_spec h).2.1

/-- A plain character never `chEq`-matches a backtick. -/
theorem chEq_bt_plain (ci : Bool) {c : Char} (h : plainChar c = true) :
    chEq ci bt c = false :=
  chEq_false_of_ne ci bt c (by decide) (by decide) (plainChar_spec h).2.2.2.1

/-- A pattern character matches itself under either folding mode. -/
theorem chEq_refl (ci : Bool) (c : Char) : chEq ci c c = true := by
  cases ci <;> simp [chEq]

/-- A literal consumes exactly itself. -/
theorem litMatch_self (ci : Bool) (ps rest : List Char) :
    litMatch ci ps (ps ++ rest) = some rest := by
  induction ps with
  | nil => rfl
  | cons p ps ih => simp [litMatch, chEq_refl, ih]

/-- A literal fails when its first character does not match the head. -/
theorem litMatch_none_of_head (ci : Bool) (p : Char) (ps s : List Char)
    (h : ∀ c, s.head? = some c → chEq ci p c = false) :
    litMatch ci (p :: ps) s = none := by
  cases s with
  | nil => rfl
  | cons c cs => simp [litMatch, h c rfl]

/-- A case-sensitive literal match decomposes the input. -/
theorem litMatch_false_eq {ps s rest : List Char}
    (h : litMatch false ps s = some rest) : s = ps ++ rest := by
  induction ps generalizing s with
  | nil => simpa [litMatch] using h
  | cons p ps ih =>
    cases s with
    | nil => simp [litMatch] at h
    | cons c cs =>
      rw [litMatch] at h
      by_cases he : chEq false p c = true
      · rw [if_pos he] at h
        have : p = c := by simpa [chEq] using he
        subst this
        simp [ih h]
      · rw [if_neg he] at h
        exact absurd h (by simp)

/-- Any literal match consumes a prefix. -/
theorem litMatch_sfx {ci : Bool} {ps s rest : List Char}
    (h : litMatch ci ps s = some rest) : ∃ u, s = u ++ rest := by
  induction ps generalizing s with
  | nil => exact ⟨[], by simpa [litMatch] using h⟩
  | cons p ps ih =>
    cases s with
    | nil => simp [litMatch] at h
    | cons c cs =>
      rw [litMatch] at h
      by_cases he : chEq ci p c = true
      · rw [if_pos he] at h
        obtain ⟨u, hu⟩ := ih h
        exact ⟨c :: u, by simp [hu]⟩
      · rw [if_neg he] at h
        exact absurd h (by simp)

/-- A class run over a satisfying prefix adds its length. -/
theorem runCls_append_all (p : Char → Bool) (u v : List Char)
    (h : ∀ c ∈ u, p c = true) : runCls p (u ++ v) = u.length + runCls p v := by
  induction u with
  | nil => simp
  | cons c cs ih =>
    rw [List.cons_append, runCls, if_pos (h c (by simp)),
      ih (fun d hd => h d (by simp [hd]))]
    simp only [List.length_cons]
    omega

/-- A class run stops at a non-member head. -/
theorem runCls_cons_neg (p : Char → Bool) (c : Char) (cs : List Char)
    (h : p c = false) : runCls p (c :: cs) = 0 := by
  simp [runCls, h]

/-- First success at a succeeding head. -/
theorem firstSome_cons_some {α β : Type} {f : α → Option β} {x : α} {xs : List α}
    (h : (f x).isSome) : firstSome (x :: xs) f = f x := by
  rw [firstSome]
  cases hf : f x with
  | none => rw [hf] at h; simp at h
  | some b => rfl

/-- First success skips a failing head. -/
theorem firstSome_cons_none {α β : Type} {f : α → Option β} {x : α} {xs : List α}
    (h : f x = none) : firstSome (x :: xs) f = firstSome xs f := by
  rw [firstSome, h]

/-- First success over all-failing alternatives is a failure. -/
theorem firstSome_none_of_all {α β : Type} {f : α → Option β} {L : List α}
    (h : ∀ x ∈ L, f x = none) : firstSome L f = none := by
  induction L with
  | nil => rfl
  | cons x xs ih =>
    rw [firstSome_cons_none (h x (by simp))]
    exact ih (fun y hy => h y (by simp [hy]))

/-- Any result of a first success comes from one alternative. -/
theorem firstSome_cases {α β : Type} (f : α → Option β) (L : List α) :
    firstSome L f = none ∨ ∃ x ∈ L, firstSome L f = f x := by
  induction L with
  | nil => exact Or.inl rfl
  | cons x xs ih =>
    cases hf : f x with
    | some b => exact Or.inr ⟨x, by simp, by rw [firstSome_cons_some (by simp [hf])]⟩
    | none =>
      rw [firstSome_cons_none hf]
      rcases ih with h | ⟨y, hy, he⟩
      · exact Or.inl h
      · exact Or.inr ⟨y, by simp [hy], he⟩

/-- Greedy star tried from the top: a succeeding maximal extent wins. -/
theorem firstSome_descend_top {β : Type} (f : Nat → Option β) (n : Nat)
    (h : (f n).isSome) : firstSome (descend n) f = f n := by
  cases n with
  | zero => rw [descend]; exact firstSome_cons_some h
  | succ n => rw [descend]; exact firstSome_cons_some h

/-- Greedy star falling through to the empty extent. -/
theorem firstSome_descend_bottom {β : Type} (f : Nat → Option β) (n : Nat)
    (h : ∀ l, 1 ≤ l → l ≤ n → f l = none) : firstSome (descend n) f = f 0 := by
  induction n with
  | zero =>
    rw [descend]
    cases hf : f 0 <;> simp [firstSome, hf]
  | succ n ih =>
    rw [descend, firstSome_cons_none (h (n + 1) (by omega) (by omega))]
    exact ih (fun l h1 h2 => h l h1 (by omega))

/-- Greedy plus tried from the top. -/
theorem firstSome_descend1_top {β : Type} (f : Nat → Option β) (n : Nat)
    (hn : 1 ≤ n) (h : (f n).isSome) : firstSome (descend1 n) f = f n := by
  cases n with
  | zero => omega
  | succ n => rw [descend1]; exact firstSome_cons_some h

/-- Membership in the greedy-star extent list. -/
theorem mem_descend {l n : Nat} : l ∈ descend n ↔ l ≤ n := by
  induction n with
  | zero => simp [descend]
  | succ n ih =>
    rw [descend]
    simp only [List.mem_cons, ih]
    omega

/-- Membership in the greedy-plus extent list. -/
theorem mem_descend1 {l n : Nat} : l ∈ descend1 n ↔ 1 ≤ l ∧ l ≤ n := by
  induction n with
  | zero => simp [descend1]; omega
  | succ n ih =>
    rw [descend1]
    simp only [List.mem_cons, ih]
    omega

/-- Unfolding: a sequence headed by a failing literal fails. -/
theorem reM_seq_lit_none {β : Type} {ci : Bool} {cs s : List Char} (r : RE)
    (cap : Option (List Char))
    (k : List Char → Option (List Char) → Option β)
    (h : litMatch ci cs s = none) :
    reM (.seq (.lit cs ci) r) s cap k = none := by
  simp only [reM, h]

/-- Unfolding: a sequence headed by a succeeding literal continues. -/
theorem reM_seq_lit_some {β : Type} {ci : Bool} {cs s rest : List Char} (r : RE)
    (cap : Option (List Char))
    (k : List Char → Option (List Char) → Option β)
    (h : litMatch ci cs s = some rest) :
    reM (.seq (.lit cs ci) r) s cap k = reM r rest cap k := by
  simp only [reM, h]

/-- Every result of the matcher is the continuation applied at a suffix
of the input; for group-free patterns the capture is passed through. -/
theorem reM_sfx {β : Type} :
    ∀ (r : RE) (s : List Char) (cap : Option (List Char))
      (k : List Char → Option (List Char) → Option β),
      reM r s cap k = none ∨
        ∃ t cap2, (∃ u, s = u ++ t) ∧ reM r s cap k = k t cap2 ∧
          (hasGrp r = false → cap2 = cap) := by
  intro r
  induction r with
  | lit cs ci =>
    intro s cap k
    cases hl : litMatch ci cs s with
    | none => exact Or.inl (by simp [reM, hl])
    | some rest =>
      exact Or.inr ⟨rest, cap, litMatch_sfx hl, by simp [reM, hl], fun _ => rfl⟩
  | starCls p =>
    intro s cap k
    rcases firstSome_cases (fun l => k (s.drop l) cap) (descend (runCls p s)) with h | ⟨l, _, he⟩
    · exact Or.inl (by simpa [reM] using h)
    · exact Or.inr ⟨s.drop l, cap, ⟨s.take l, (List.take_append_drop l s).symm⟩,
        by simpa [reM] using he, fun _ => rfl⟩
  | plusCls p =>
    intro s cap k
    rcases firstSome_cases (fun l => k (s.drop l) cap) (descend1 (runCls p s)) with h | ⟨l, _, he⟩
    · exact Or.inl (by simpa [reM] using h)
    · exact Or.inr ⟨s.drop l, cap, ⟨s.take l, (List.take_append_drop l s).symm⟩,
        by simpa [reM] using he, fun _ => rfl⟩
  | quesCls p =>
    intro s cap k
    cases s with
    | nil => exact Or.inr ⟨[], cap, ⟨[], rfl⟩, by simp [reM], fun _ => rfl⟩
    | cons c cs =>
      by_cases hp : p c = true
      · cases hk : k cs cap with
        | some b =>
          refine Or.inr ⟨cs, cap, ⟨[c], rfl⟩, ?_, fun _ => rfl⟩
          simp [reM, hp, hk]
        | none =>
          refine Or.inr ⟨c :: cs, cap, ⟨[], rfl⟩, ?_, fun _ => rfl⟩
          simp [reM, hp, hk]
      · refine Or.inr ⟨c :: cs, cap, ⟨[], rfl⟩, ?_, fun _ => rfl⟩
        simp [reM, hp]
  | lazyStar =>
    intro s cap k
    rcases firstSome_cases (fun l => k (s.drop l) cap) (ascend s.length) with h | ⟨l, _, he⟩
    · exact Or.inl (by simpa [reM] using h)
    · exact Or.inr ⟨s.drop l, cap, ⟨s.take l, (List.take_append_drop l s).symm⟩,
        by simpa [reM] using he, fun _ => rfl⟩
  | grp r ih =>
    intro s cap k
    rcases ih s cap (fun rest _ => k rest (some (s.take (s.length - rest.length)))) with h | ⟨t, _, hu, he, _⟩
    · exact Or.inl (by simpa [reM] using h)
    · refine Or.inr ⟨t, some (s.take (s.length - t.length)), hu, ?_, by simp [hasGrp]⟩
      simpa [reM] using he
  | seq a b iha ihb =>
    intro s cap k
    rcases iha s cap (fun rest cap1 => reM b rest cap1 k) with h | ⟨t1, cap1, ⟨u1, hu1⟩, he1, hc1⟩
    · exact Or.inl (by simpa [reM] using h)
    · rcases ihb t1 cap1 k with h | ⟨t2, cap2, ⟨u2, hu2⟩, he2, hc2⟩
      · exact Or.inl (by rw [reM]; rw [he1, h])
      · refine Or.inr ⟨t2, cap2, ⟨u1 ++ u2, by rw [hu1, hu2, List.append_assoc]⟩, ?_, ?_⟩
        · rw [reM, he1, he2]
        · intro hg
          simp only [hasGrp, Bool.or_eq_false_iff] at hg
          rw [hc2 hg.2, hc1 hg.1]

/-- A successful match consumes at most the whole input. -/
theorem matchAt_le {pat : RE} {s : List Char} {n : Nat} {cap : Option (List Char)}
    (h : matchAt pat s = some (n, cap)) : n ≤ s.length := by
  rw [matchAt] at h
  rcases reM_sfx pat s none (fun rest cap => some (s.length - rest.length, cap)) with
    h2 | ⟨t, cap2, _, he, _⟩
  · rw [h2] at h; exact absurd h (by simp)
  · rw [he] at h
    simp only [Option.some.injEq, Prod.mk.injEq] at h
    omega

/-- A match of a pattern headed by a literal fails when the head
character differs. -/
theorem matchAt_head_lit_none (c0 : Char) (ps : List Char) (ci : Bool) (r : RE)
    (s : List Char) (h : ∀ c, s.head? = some c → chEq ci c0 c = false) :
    matchAt (.seq (.lit (c0 :: ps) ci) r) s = none := by
  rw [matchAt]
  exact reM_seq_lit_none r none _ (litMatch_none_of_head ci c0 ps s h)

/-- A match at the empty input consumes nothing. -/
theorem matchAt_nil_zero {pat : RE} {n : Nat} {cap : Option (List Char)}
    (h : matchAt pat [] = some (n, cap)) : n = 0 := by
  have := matchAt_le h
  simpa using this

/-- The findall scan does not depend on the fuel once it exceeds the
input length. -/
theorem scanRE_fuel (pat : RE) : ∀ (f1 f2 : Nat) (s : List Char),
    s.length < f1 → s.length < f2 → scanRE pat f1 s = scanRE pat f2 s := by
  intro f1
  induction f1 with
  | zero => intro f2 s h1 h2; omega
  | succ f ih =>
    intro f2 s h1 h2
    cases f2 with
    | zero => omega
    | succ g =>
      cases s with
      | nil => rw [scanRE, scanRE]
      | cons c s1 =>
        rw [scanRE, scanRE]
        cases hm : matchAt pat (c :: s1) with
        | none =>
          have hr := ih g s1 (by simp at h1; omega) (by simp at h2; omega)
          simp [hm, hr]
        | some nc =>
          obtain ⟨n, cap⟩ := nc
          by_cases hn : n = 0
          · subst hn
            have hr := ih g s1 (by simp at h1; omega) (by simp at h2; omega)
            simp [hm, hr]
          · have hle := matchAt_le hm
            have hlen : ((c :: s1).drop n).length = (c :: s1).length - n := by simp
            have hd1 : ((c :: s1).drop n).length < f := by simp at h1 ⊢; omega
            have hd2 : ((c :: s1).drop n).length < g := by simp at h2 ⊢; omega
            simp [hm, hn, ih g ((c :: s1).drop n) hd1 hd2]

/-- The scan skips a position with no match. -/
theorem scanRE_skip_cons (pat : RE) (f : Nat) (c : Char) (s1 : List Char)
    (h : matchAt pat (c :: s1) = none) :
    scanRE pat (f + 1) (c :: s1) = scanRE pat f s1 := by
  rw [scanRE]
  simp [h]

/-- The scan steps over a non-empty match, emitting it. -/
theorem scanRE_match_step (pat : RE) (f : Nat) (c : Char) (s1 : List Char) (n : Nat)
    (cap : Option (List Char)) (h : matchAt pat (c :: s1) = some (n, cap)) (hn : n ≠ 0) :
    scanRE pat (f + 1) (c :: s1) =
      cap.getD ((c :: s1).take n) :: scanRE pat f ((c :: s1).drop n) := by
  rw [scanRE]
  simp [h, hn]

/-- findall over a prefix in which no position matches. -/
theorem findallRE_skip (pat : RE) (u v : List Char)
    (h : ∀ i, i < u.length → matchAt pat (u.drop i ++ v) = none) :
    findallRE pat (u ++ v) = findallRE pat v := by
  induction u with
  | nil => simp
  | cons c u1 ih =>
    have h0 : matchAt pat (c :: (u1 ++ v)) = none := by
      have := h 0 (by simp)
      simpa using this
    rw [findallRE, List.cons_append]
    have hl : (c :: (u1 ++ v)).length + 1 = ((u1 ++ v).length + 1) + 1 := by simp
    rw [hl, scanRE_skip_cons pat _ c (u1 ++ v) h0]
    exact ih fun i hi => by
      have := h (i + 1) (by simp; omega)
      simpa using this

/-- findall over a text in which no position (including the end)
matches is empty. -/
theorem findallRE_nil_of (pat : RE) (s : List Char)
    (h : ∀ i, i ≤ s.length → matchAt pat (s.drop i) = none) :
    findallRE pat s = [] := by
  have base : findallRE pat [] = [] := by
    have h1 : findallRE pat [] = scanRE pat (0 + 1) [] := rfl
    rw [h1, scanRE]
    have hm := h s.length (le_refl _)
    rw [List.drop_length] at hm
    simp [hm]
  have h2 : ∀ i, i < s.length → matchAt pat (s.drop i ++ ([] : List Char)) = none :=
    fun i hi => by rw [List.append_nil]; exact h i (le_of_lt hi)
  have := findallRE_skip pat s [] h2
  rw [List.append_nil] at this
  rw [this, base]

/-- The substitution scan does not depend on the fuel once it exceeds
the input length. -/
theorem subAllGo_fuel (pat : RE) (repl : List Char) : ∀ (f1 f2 : Nat) (s : List Char),
    s.length < f1 → s.length < f2 → subAllGo pat repl f1 s = subAllGo pat repl f2 s := by
  intro f1
  induction f1 with
  | zero => intro f2 s h1 h2; omega
  | succ f ih =>
    intro f2 s h1 h2
    cases f2 with
    | zero => omega
    | succ g =>
      cases s with
      | nil => rw [subAllGo, subAllGo]
      | cons c s1 =>
        rw [subAllGo, subAllGo]
        cases hm : matchAt pat (c :: s1) with
        | none =>
          have hr := ih g s1 (by simp at h1; omega) (by simp at h2; omega)
          simp [hm, hr]
        | some nc =>
          obtain ⟨n, cap⟩ := nc
          by_cases hn : n = 0
          · subst hn
            have hr := ih g s1 (by simp at h1; omega) (by simp at h2; omega)
            simp [hm, hr]
          · have hle := matchAt_le hm
            have hlen : ((c :: s1).drop n).length = (c :: s1).length - n := by simp
            have hd1 : ((c :: s1).drop n).length < f := by simp at h1 ⊢; omega
            have hd2 : ((c :: s1).drop n).length < g := by simp at h2 ⊢; omega
            simp [hm, hn, ih g ((c :: s1).drop n) hd1 hd2]

/-- The substitution copies a position with no match. -/
theorem subAllGo_skip_cons (pat : RE) (repl : List Char) (f : Nat) (c : Char)
    (s1 : List Char) (h : matchAt pat (c :: s1) = none) :
    subAllGo pat repl (f + 1) (c :: s1) = c :: subAllGo pat repl f s1 := by
  rw [subAllGo]
  simp [h]

/-- The substitution replaces a non-empty match and continues after it. -/
theorem subAllGo_match_step (pat : RE) (repl : List Char) (f : Nat) (c : Char)
    (s1 : List Char) (n : Nat) (cap : Option (List Char))
    (h : matchAt pat (c :: s1) = some (n, cap)) (hn : n ≠ 0) :
    subAllGo pat repl (f + 1) (c :: s1) =
      repl ++ subAllGo pat repl f ((c :: s1).drop n) := by
  rw [subAllGo]
  simp [h, hn]

/-- Substitution over a prefix in which no position matches copies it. -/
theorem subAll_skip (pat : RE) (repl : List Char) (u v : List Char)
    (h : ∀ i, i < u.length → matchAt pat (u.drop i ++ v) = none) :
    subAll pat repl (u ++ v) = u ++ subAll pat repl v := by
  induction u with
  | nil => simp
  | cons c u1 ih =>
    have h0 : matchAt pat (c :: (u1 ++ v)) = none := by
      have := h 0 (by simp)
      simpa using this
    rw [subAll, List.cons_append]
    have hl : (c :: (u1 ++ v)).length + 1 = ((u1 ++ v).length + 1) + 1 := by simp
    rw [hl, subAllGo_skip_cons pat repl _ c (u1 ++ v) h0]
    have := ih fun i hi => by
      have := h (i + 1) (by simp; omega)
      simpa using this
    rw [subAll] at this
    rw [this]
    rfl

/-- Substitution over a text in which no position (including the end)
matches is the identity. -/
theorem subAll_id (pat : RE) (repl : List Char) (s : List Char)
    (h : ∀ i, i ≤ s.length → matchAt pat (s.drop i) = none) :
    subAll pat repl s = s := by
  have base : subAll pat repl [] = [] := by
    have h1 : subAll pat repl [] = subAllGo pat repl (0 + 1) [] := rfl
    rw [h1, subAllGo]
    have hm := h s.length (le_refl _)
    rw [List.drop_length] at hm
    simp [hm]
  have h2 : ∀ i, i < s.length → matchAt pat (s.drop i ++ ([] : List Char)) = none :=
    fun i hi => by rw [List.append_nil]; exact h i (le_of_lt hi)
  have := subAll_skip pat repl s [] h2
  rw [List.append_nil] at this
  rw [this, base, List.append_nil]

/-- Characters of a substitution result come from the input or the
replacement. -/
theorem mem_subAllGo (pat : RE) (repl : List Char) :
    ∀ (f : Nat) (s : List Char) (c : Char),
      c ∈ subAllGo pat repl f s → c ∈ s ∨ c ∈ repl := by
  intro f
  induction f with
  | zero => intro s c hc; exact Or.inl hc
  | succ f ih =>
    intro s c hc
    cases s with
    | nil =>
      rw [subAllGo] at hc
      cases hm : matchAt pat [] with
      | none => rw [hm] at hc; simp at hc
      | some nc => rw [hm] at hc; exact Or.inr hc
    | cons d s1 =>
      rw [subAllGo] at hc
      cases hm : matchAt pat (d :: s1) with
      | none =>
        rw [hm] at hc
        simp only [List.mem_cons] at hc
        rcases hc with h | h
        · exact Or.inl (by simp [h])
        · rcases ih s1 c h with h2 | h2
          · exact Or.inl (by simp [h2])
          · exact Or.inr h2
      | some nc =>
        obtain ⟨n, cap⟩ := nc
        by_cases hn : n = 0
        · subst hn
          simp only [hm, reduceIte, List.mem_append, List.mem_cons] at hc
          rcases hc with h | h | h
          · exact Or.inr h
          · exact Or.inl (by simp [h])
          · rcases ih s1 c h with h2 | h2
            · exact Or.inl (by simp [h2])
            · exact Or.inr h2
        · simp only [hm, if_neg hn, List.mem_append] at hc
          rcases hc with h | h
          · exact Or.inr h
          · rcases ih ((d :: s1).drop n) c h with h2 | h2
            · exact Or.inl (List.mem_of_mem_drop h2)
            · exact Or.inr h2

/-- A keyword literal against a plain value region either fails or
consumes up to (and including) the closing quote. -/
theorem litMatch_word_quote (ci : Bool) (w : List Char) :
    ∀ (X : List Char) (d : Char) (tail : List Char),
      (∀ c ∈ w, chEq ci c qu = false) → (∀ c ∈ X, plainChar c = true) →
      litMatch ci (w ++ [qu]) (X ++ qu :: d :: tail) = none ∨
      litMatch ci (w ++ [qu]) (X ++ qu :: d :: tail) = some (d :: tail) := by
  induction w with
  | nil =>
    intro X d tail _ hX
    cases X with
    | nil => right; simp [litMatch, chEq_refl]
    | cons x X1 =>
      left
      simp only [List.nil_append, List.cons_append]
      exact litMatch_none_of_head ci qu [] _ fun c hc => by
        simp only [List.head?_cons, Option.some.injEq] at hc
        rw [← hc]
        exact chEq_qu_plain ci (hX x (by simp))
  | cons a w1 ih =>
    intro X d tail hw hX
    cases X with
    | nil =>
      left
      simp only [List.nil_append, List.cons_append]
      exact litMatch_none_of_head ci a _ _ fun c hc => by
        simp only [List.head?_cons, Option.some.injEq] at hc
        rw [← hc]
        exact hw a (by simp)
    | cons x X1 =>
      rw [List.cons_append, List.cons_append, litMatch]
      by_cases hax : chEq ci a x = true
      · rw [if_pos hax]
        exact ih X1 d tail (fun c hc => hw c (by simp [hc])) (fun c hc => hX c (by simp [hc]))
      · rw [if_neg hax]
        left
        rfl

/-- A sequence headed by a quote-initial literal fails when the head of
the input cannot be a quote. -/
theorem reM_kwpat_head_none {β : Type} (ci : Bool) (ps : List Char) (r : RE)
    (s : List Char) (cap : Option (List Char))
    (k : List Char → Option (List Char) → Option β)
    (h : ∀ c, s.head? = some c → chEq ci qu c = false) :
    reM (.seq (.lit (qu :: ps) ci) r) s cap k = none :=
  reM_seq_lit_none r cap k (litMatch_none_of_head ci qu ps s h)

/-- A sequence headed by a quote-then-`e` literal fails when the second
input character cannot match `e`. -/
theorem reM_kwpat_second_none {β : Type} (ci : Bool) (e : Char) (ps : List Char)
    (r : RE) (c2 : Char) (s : List Char) (cap : Option (List Char))
    (k : List Char → Option (List Char) → Option β)
    (h : chEq ci e c2 = false) :
    reM (.seq (.lit (qu :: e :: ps) ci) r) (qu :: c2 :: s) cap k = none := by
  apply reM_seq_lit_none
  rw [litMatch, if_pos (chEq_refl ci qu)]
  exact litMatch_none_of_head ci e ps (c2 :: s) fun c hc => by
    simp only [List.head?_cons, Option.some.injEq] at hc
    rw [← hc]
    exact h

/-- The whitespace-star-then-colon continuation fails on a head that is
neither whitespace nor a colon. -/
theorem contWsColon_none {β : Type} (d : Char) (tail : List Char) (r' : RE)
    (cap : Option (List Char)) (k : List Char → Option (List Char) → Option β)
    (hws : isWs d = false) (hdc : chEq false ':' d = false) :
    reM (.seq (.starCls isWs) (.seq (.lit [':'] false) r')) (d :: tail) cap k = none := by
  have hr : runCls isWs (d :: tail) = 0 := runCls_cons_neg _ _ _ hws
  have hl2 : litMatch false [':'] (d :: tail) = none :=
    litMatch_none_of_head false ':' [] _ fun c hc => by
      simp only [List.head?_cons, Option.some.injEq] at hc
      rw [← hc]
      exact hdc
  simp [reM, hr, descend, firstSome, hl2]

/-- Master probe lemma: inside the rendering of a one-member object
with a plain value, a quoted-keyword pattern cannot start matching at
any offset after the opening brace (the only nontrivial probes are at
the quote positions, where either the following characters or the
whitespace-colon continuation mismatch). -/
theorem probe_kw_none {β : Type} (ci : Bool) (w : List Char) (e : Char) (w2 : List Char)
    (X : List Char) (d : Char) (tail : List Char) (r' : RE)
    (cap : Option (List Char)) (k : List Char → Option (List Char) → Option β)
    (hw : ∀ c ∈ w, chEq ci qu c = false)
    (hX : ∀ c ∈ X, plainChar c = true)
    (hw2 : ∀ c ∈ e :: w2, chEq ci c qu = false)
    (he_colon : chEq ci e ':' = false)
    (he_d : chEq ci e d = false)
    (hd_ws : isWs d = false)
    (hd_colon : chEq false ':' d = false)
    (hd_qu : chEq ci qu d = false)
    (l : Nat) (h1 : 1 ≤ l) (h2 : l ≤ w.length + 6 + X.length) :
    reM (.seq (.lit (qu :: e :: w2 ++ [qu]) ci)
         (.seq (.starCls isWs) (.seq (.lit [':'] false) r')))
      ((kwIntro w ++ X ++ qu :: d :: tail).drop l) cap k = none := by
  obtain ⟨m, rfl⟩ : ∃ m, l = m + 1 := ⟨l - 1, by omega⟩
  have hR : kwIntro w ++ X ++ qu :: d :: tail =
      qu :: (w ++ ([qu, ':', ' ', qu] ++ (X ++ qu :: d :: tail))) := by
    simp [kwIntro]
  rw [hR, List.drop_succ_cons]
  by_cases hmw : m < w.length
  · rw [List.drop_append_of_le_length (by omega), List.drop_eq_getElem_cons hmw]
    exact reM_kwpat_head_none ci _ _ _ cap k fun c hc => by
      simp only [List.cons_append, List.head?_cons, Option.some.injEq] at hc
      rw [← hc]
      exact hw _ (List.getElem_mem hmw)
  · obtain ⟨j, rfl⟩ : ∃ j, m = w.length + j := ⟨m - w.length, by omega⟩
    rw [List.drop_append]
    have hjb : j ≤ 5 + X.length := by omega
    rcases Nat.lt_or_ge j 4 with hj4 | hj4
    · interval_cases j
      · simp only [List.drop_zero, List.cons_append, List.nil_append]
        exact reM_kwpat_second_none ci e (w2 ++ [qu]) _ ':' _ cap k he_colon
      · simp only [List.cons_append, List.nil_append, List.drop_succ_cons, List.drop_zero]
        exact reM_kwpat_head_none ci _ _ _ cap k fun c hc => by
          simp only [List.head?_cons, Option.some.injEq] at hc
          rw [← hc]
          cases ci <;> decide
      · simp only [List.cons_append, List.nil_append, List.drop_succ_cons, List.drop_zero]
        exact reM_kwpat_head_none ci _ _ _ cap k fun c hc => by
          simp only [List.head?_cons, Option.some.injEq] at hc
          rw [← hc]
          cases ci <;> decide
      · simp only [List.cons_append, List.nil_append, List.drop_succ_cons, List.drop_zero]
        rcases litMatch_word_quote ci (e :: w2) X d tail hw2 hX with hnone | hsome
        · apply reM_seq_lit_none
          rw [litMatch, if_pos (chEq_refl ci qu)]
          simpa [List.cons_append] using hnone
        · rw [reM_seq_lit_some _ cap k
            (by rw [litMatch, if_pos (chEq_refl ci qu)]; simpa [List.cons_append] using hsome)]
          exact contWsColon_none d tail r' cap k hd_ws hd_colon
    · obtain ⟨jj, rfl⟩ : ∃ jj, j = 4 + jj := ⟨j - 4, by omega⟩
      have h4 : ([qu, ':', ' ', qu] ++ (X ++ qu :: d :: tail)).drop (4 + jj) =
          (X ++ qu :: d :: tail).drop jj := by
        have : (4 : Nat) + jj = ([qu, ':', ' ', qu] : List Char).length + jj := by simp
        rw [this, List.drop_append]
      rw [h4]
      rcases Nat.lt_or_ge jj X.length with hjx | hjx
      · rw [List.drop_append_of_le_length (by omega), List.drop_eq_getElem_cons hjx]
        exact reM_kwpat_head_none ci _ _ _ cap k fun c hc => by
          simp only [List.cons_append, List.head?_cons, Option.some.injEq] at hc
          rw [← hc]
          exact chEq_qu_plain ci (hX _ (List.getElem_mem hjx))
      · have hjj : jj = X.length ∨ jj = X.length + 1 := by omega
        rcases hjj with hjj | hjj
        · subst hjj
          rw [show X.length = X.length + 0 by omega, List.drop_append, List.drop_zero]
          exact reM_kwpat_second_none ci e (w2 ++ [qu]) _ d tail cap k he_d
        · subst hjj
          rw [List.drop_append, List.drop_succ_cons, List.drop_zero]
          exact reM_kwpat_head_none ci _ _ _ cap k fun c hc => by
            simp only [List.head?_cons, Option.some.injEq] at hc
            rw [← hc]
            exact hd_qu

/-- First success over a single alternative. -/
theorem firstSome_singleton {α β : Type} (f : α → Option β) (x : α) :
    firstSome [x] f = f x := by
  rw [firstSome]
  cases hf : f x <;> simp [firstSome, hf]

/-- Plain characters are not braces. -/
theorem nonBrace_of_plain {c : Char} (h : plainChar c = true) : nonBrace c = true := by
  obtain ⟨-, h2, h3, -, -, -⟩ := plainChar_spec h
  simp [nonBrace, h2, h3]

/-- Plain characters are not quotes. -/
theorem nonQuote_of_plain {c : Char} (h : plainChar c = true) : nonQuote c = true := by
  obtain ⟨h1, -, -, -, -, -⟩ := plainChar_spec h
  simp [nonQuote, h1]

/-- Success trace: the one-member-object pattern consumes exactly the
rendering of the object whose key is its own keyword, handing the
continuation the text after the closing brace.  (The greedy inner star
first swallows the whole brace-free interior; the probes of shorter
extents all fail until the split right after the opening brace, and
from there each step of the pattern matches deterministically.) -/
theorem reM_kwPat_obj {β : Type} (ci : Bool) (e : Char) (w2 X rest : List Char)
    (cap : Option (List Char)) (k : List Char → Option (List Char) → Option β)
    (hX : ∀ c ∈ X, plainChar c = true) (hXne : X ≠ [])
    (hkw_qu : ∀ c ∈ e :: w2, chEq ci c qu = false ∧ chEq ci qu c = false)
    (hkw_nb : ∀ c ∈ e :: w2, nonBrace c = true)
    (he_colon : chEq ci e ':' = false)
    (he_rb : chEq ci e rb = false)
    (hk : (k rest cap).isSome) :
    reM (.seq (.lit [lb] false) (.seq (.starCls nonBrace)
        (.seq (.lit (qu :: e :: w2 ++ [qu]) ci) (.seq (.starCls isWs) (.seq (.lit [':'] false)
        (.seq (.starCls isWs) (.seq (.lit [qu] false) (.seq (.plusCls nonQuote)
        (.seq (.lit [qu] false) (.seq (.starCls nonBrace) (.lit [rb] false)))))))))))
      (kwObj (e :: w2) X ++ rest) cap k = k rest cap := by
  have hS : kwObj (e :: w2) X ++ rest =
      lb :: (kwIntro (e :: w2) ++ X ++ qu :: rb :: rest) := by
    simp [kwObj]
  rw [hS]
  rw [reM_seq_lit_some _ cap k
    (show litMatch false [lb] (lb :: (kwIntro (e :: w2) ++ X ++ qu :: rb :: rest)) =
        some (kwIntro (e :: w2) ++ X ++ qu :: rb :: rest) from
      litMatch_self false [lb] _)]
  -- the brace-free run of the interior
  have hall : ∀ c ∈ kwIntro (e :: w2) ++ X ++ [qu], nonBrace c = true := by
    intro c hc
    have hforms : c = qu ∨ c = ':' ∨ c = ' ' ∨ c = e ∨ c ∈ w2 ∨ c ∈ X := by
      simp only [kwIntro, List.cons_append, List.mem_append, List.mem_cons,
        List.mem_singleton, List.not_mem_nil, or_false] at hc
      tauto
    rcases hforms with h | h | h | h | h | h
    · rw [h]; decide
    · rw [h]; decide
    · rw [h]; decide
    · exact hkw_nb c (by simp [h])
    · exact hkw_nb c (by simp [h])
    · exact nonBrace_of_plain (hX c h)
  have hrun : runCls nonBrace (kwIntro (e :: w2) ++ X ++ qu :: rb :: rest) =
      (e :: w2).length + 6 + X.length := by
    have hintre : kwIntro (e :: w2) ++ X ++ qu :: rb :: rest =
        (kwIntro (e :: w2) ++ X ++ [qu]) ++ rb :: rest := by simp
    rw [hintre, runCls_append_all nonBrace _ _ hall, runCls_cons_neg _ _ _ (by decide)]
    simp [kwIntro]
    omega
  rw [reM, reM, hrun]
  rw [firstSome_descend_bottom _ _ (fun l h1 h2 =>
    probe_kw_none ci (e :: w2) e w2 X rb rest _ cap k
      (fun c hc => (hkw_qu c hc).2) hX (fun c hc => (hkw_qu c hc).1)
      he_colon he_rb (by decide) (by decide) (by cases ci <;> decide) l h1 h2)]
  simp only [List.drop_zero]
  -- the keyword literal consumes the key intro
  have hsplit : kwIntro (e :: w2) ++ X ++ qu :: rb :: rest =
      (qu :: e :: w2 ++ [qu]) ++ (':' :: ' ' :: qu :: (X ++ qu :: rb :: rest)) := by
    simp [kwIntro]
  rw [hsplit, reM_seq_lit_some _ cap k (litMatch_self ci _ _)]
  -- whitespace star before the colon is empty
  rw [reM, reM, runCls_cons_neg _ _ _ (by decide), descend, firstSome_singleton]
  simp only [List.drop_zero]
  rw [reM_seq_lit_some _ cap k
    (show litMatch false [':'] (':' :: (' ' :: qu :: (X ++ qu :: rb :: rest))) =
        some (' ' :: qu :: (X ++ qu :: rb :: rest)) from
      litMatch_self false [':'] _)]
  -- value of the continuation at the split after the single space
  have hqu : litMatch false [qu] (qu :: (X ++ qu :: rb :: rest)) = some (X ++ qu :: rb :: rest) :=
    litMatch_self false [qu] _
  have hplus : runCls nonQuote (X ++ qu :: rb :: rest) = X.length := by
    rw [runCls_append_all nonQuote _ _ (fun c hc => nonQuote_of_plain (hX c hc)),
      runCls_cons_neg _ _ _ (by simp [nonQuote])]
    omega
  have hinner :
      reM (.seq (.lit [qu] false) (.seq (.starCls nonBrace) (.lit [rb] false)))
        ((X ++ qu :: rb :: rest).drop X.length) cap k = k rest cap := by
    rw [List.drop_left]
    rw [reM_seq_lit_some _ cap k
      (show litMatch false [qu] (qu :: rb :: rest) = some (rb :: rest) from
        litMatch_self false [qu] _)]
    rw [reM, reM, runCls_cons_neg _ _ _ (by decide), descend, firstSome_singleton]
    simp only [List.drop_zero]
    rw [reM]
    rw [show litMatch false [rb] (rb :: rest) = some rest from litMatch_self false [rb] rest]
  have htailval :
      reM (.seq (.lit [qu] false) (.seq (.plusCls nonQuote)
        (.seq (.lit [qu] false) (.seq (.starCls nonBrace) (.lit [rb] false)))))
        (qu :: (X ++ qu :: rb :: rest)) cap k = k rest cap := by
    rw [reM_seq_lit_some _ cap k hqu]
    rw [reM, reM, hplus]
    have hlen1 : 1 ≤ X.length := by
      cases X with
      | nil => exact absurd rfl hXne
      | cons a b => simp
    rw [firstSome_descend1_top _ X.length hlen1 (by rw [hinner]; exact hk)]
    exact hinner
  have hws1 : runCls isWs (' ' :: qu :: (X ++ qu :: rb :: rest)) = 1 := by
    rw [runCls, if_pos (by decide), runCls_cons_neg _ _ _ (by decide)]
  rw [reM, reM, hws1, descend]
  rw [firstSome_cons_some (by
    simp only [List.drop_succ_cons, List.drop_zero]
    rw [htailval]
    exact hk)]
  simp only [List.drop_succ_cons, List.drop_zero]
  exact htailval

/-- Case-sensitive left-brace comparison against a non-brace. -/
theorem chEq_false_lb {c : Char} (h : c ≠ lb) : chEq false lb c = false := by
  simp only [chEq, Bool.false_eq_true, if_false, decide_eq_false_iff_not]
  exact fun he => h he.symm

/-- At the object, the matching keyword pattern consumes exactly the
object's rendering without capture. -/
theorem matchAt_kwPat_obj (ci : Bool) (e : Char) (w2 X rest : List Char)
    (hX : ∀ c ∈ X, plainChar c = true) (hXne : X ≠ [])
    (hkw_qu : ∀ c ∈ e :: w2, chEq ci c qu = false ∧ chEq ci qu c = false)
    (hkw_nb : ∀ c ∈ e :: w2, nonBrace c = true)
    (he_colon : chEq ci e ':' = false)
    (he_rb : chEq ci e rb = false) :
    matchAt (.seq (.lit [lb] false) (.seq (.starCls nonBrace)
        (.seq (.lit (qu :: e :: w2 ++ [qu]) ci) (.seq (.starCls isWs) (.seq (.lit [':'] false)
        (.seq (.starCls isWs) (.seq (.lit [qu] false) (.seq (.plusCls nonQuote)
        (.seq (.lit [qu] false) (.seq (.starCls nonBrace) (.lit [rb] false)))))))))))
      (kwObj (e :: w2) X ++ rest) = some ((kwObj (e :: w2) X).length, none) := by
  rw [matchAt, reM_kwPat_obj ci e w2 X rest none _ hX hXne hkw_qu hkw_nb he_colon he_rb (by simp)]
  have : (kwObj (e :: w2) X ++ rest).length - rest.length = (kwObj (e :: w2) X).length := by
    rw [List.length_append]
    omega
  rw [this]

/-- At an object whose key starts with a different character than the
pattern's keyword, the keyword pattern fails. -/
theorem matchAt_kwPat_objWrong_none (ci : Bool) (e : Char) (w2 : List Char)
    (f : Char) (w1 : List Char) (X rest : List Char) (r' : RE)
    (hX : ∀ c ∈ X, plainChar c = true)
    (hw_qu : ∀ c ∈ f :: w1, chEq ci qu c = false)
    (hw_nb : ∀ c ∈ f :: w1, nonBrace c = true)
    (hw2_qu : ∀ c ∈ e :: w2, chEq ci c qu = false)
    (he_colon : chEq ci e ':' = false)
    (he_rb : chEq ci e rb = false)
    (he_f : chEq ci e f = false) :
    matchAt (.seq (.lit [lb] false) (.seq (.starCls nonBrace)
        (.seq (.lit (qu :: e :: w2 ++ [qu]) ci) (.seq (.starCls isWs)
          (.seq (.lit [':'] false) r')))))
      (kwObj (f :: w1) X ++ rest) = none := by
  have hS : kwObj (f :: w1) X ++ rest =
      lb :: (kwIntro (f :: w1) ++ X ++ qu :: rb :: rest) := by
    simp [kwObj]
  rw [matchAt, hS]
  rw [reM_seq_lit_some _ none _
    (show litMatch false [lb] (lb :: (kwIntro (f :: w1) ++ X ++ qu :: rb :: rest)) =
        some (kwIntro (f :: w1) ++ X ++ qu :: rb :: rest) from
      litMatch_self false [lb] _)]
  have hall : ∀ c ∈ kwIntro (f :: w1) ++ X ++ [qu], nonBrace c = true := by
    intro c hc
    have hforms : c = qu ∨ c = ':' ∨ c = ' ' ∨ c = f ∨ c ∈ w1 ∨ c ∈ X := by
      simp only [kwIntro, List.cons_append, List.mem_append, List.mem_cons,
        List.mem_singleton, List.not_mem_nil, or_false] at hc
      tauto
    rcases hforms with h | h | h | h | h | h
    · rw [h]; decide
    · rw [h]; decide
    · rw [h]; decide
    · exact hw_nb c (by simp [h])
    · exact hw_nb c (by simp [h])
    · exact nonBrace_of_plain (hX c h)
  have hrun : runCls nonBrace (kwIntro (f :: w1) ++ X ++ qu :: rb :: rest) =
      (f :: w1).length + 6 + X.length := by
    have hintre : kwIntro (f :: w1) ++ X ++ qu :: rb :: rest =
        (kwIntro (f :: w1) ++ X ++ [qu]) ++ rb :: rest := by simp
    rw [hintre, runCls_append_all nonBrace _ _ hall, runCls_cons_neg _ _ _ (by decide)]
    simp [kwIntro]
    omega
  rw [reM, reM, hrun]
  apply firstSome_none_of_all
  intro l hl
  rw [mem_descend] at hl
  cases Nat.eq_zero_or_pos l with
  | inl h0 =>
    subst h0
    simp only [List.drop_zero]
    have hS2 : kwIntro (f :: w1) ++ X ++ qu :: rb :: rest =
        qu :: f :: (w1 ++ [qu, ':', ' ', qu] ++ (X ++ qu :: rb :: rest)) := by
      simp [kwIntro]
    rw [hS2]
    exact reM_kwpat_second_none ci e (w2 ++ [qu]) _ f _ none _ he_f
  | inr hpos =>
    exact probe_kw_none ci (f :: w1) e w2 X rb rest r' none _
      hw_qu hX hw2_qu he_colon he_rb (by decide) (by decide)
      (by cases ci <;> decide) l hpos (by simpa using hl)

/-- A pattern that must start with a left brace fails where the head is
not one. -/
theorem matchAt_lbPat_none (r : RE) (s : List Char)
    (h : ∀ c, s.head? = some c → c ≠ lb) :
    matchAt (.seq (.lit [lb] false) r) s = none :=
  matchAt_head_lit_none lb [] false r s fun c hc => chEq_false_lb (h c hc)

/-- findall of a brace-initial pattern skips a brace-free prefix. -/
theorem findall_lbPat_pre (r : RE) (u v : List Char) (hu : ∀ c ∈ u, c ≠ lb) :
    findallRE (.seq (.lit [lb] false) r) (u ++ v) =
      findallRE (.seq (.lit [lb] false) r) v := by
  apply findallRE_skip
  intro i hi
  apply matchAt_lbPat_none
  intro c hc
  rw [List.drop_eq_getElem_cons hi] at hc
  simp only [List.cons_append, List.head?_cons, Option.some.injEq] at hc
  rw [← hc]
  exact hu _ (List.getElem_mem hi)

/-- findall of a brace-initial pattern over a brace-free text is empty. -/
theorem findall_lbPat_nil (r : RE) (v : List Char) (hv : ∀ c ∈ v, c ≠ lb) :
    findallRE (.seq (.lit [lb] false) r) v = [] := by
  apply findallRE_nil_of
  intro i _
  apply matchAt_lbPat_none
  intro c hc
  have : c ∈ v.drop i := by
    cases hd : v.drop i with
    | nil => rw [hd] at hc; simp at hc
    | cons a t => rw [hd] at hc; simp at hc; simp [hd, hc]
  exact hv c (List.mem_of_mem_drop this)

/-- The characters of a one-member object other than the head are never
a left brace. -/
theorem kwObj_tail_no_lb (w X : List Char) (hw : ∀ c ∈ w, c ≠ lb)
    (hX : ∀ c ∈ X, plainChar c = true) :
    ∀ c ∈ kwIntro w ++ X ++ [qu, rb], c ≠ lb := by
  intro c hc
  have hforms : c = qu ∨ c = ':' ∨ c = ' ' ∨ c ∈ w ∨ c ∈ X ∨ c = rb := by
    simp only [kwIntro, List.cons_append, List.mem_append, List.mem_cons,
      List.mem_singleton, List.not_mem_nil, or_false] at hc
    tauto
  rcases hforms with h | h | h | h | h | h
  · rw [h]; decide
  · rw [h]; decide
  · rw [h]; decide
  · exact hw c h
  · exact (plainChar_spec (hX c h)).2.1
  · rw [h]; decide

/-- findall of the matching keyword pattern on the object followed by a
brace-free tail: exactly the object is found. -/
theorem findall_kwPat_obj_post (ci : Bool) (e : Char) (w2 X post : List Char)
    (hX : ∀ c ∈ X, plainChar c = true) (hXne : X ≠ [])
    (hkw_qu : ∀ c ∈ e :: w2, chEq ci c qu = false ∧ chEq ci qu c = false)
    (hkw_nb : ∀ c ∈ e :: w2, nonBrace c = true)
    (he_colon : chEq ci e ':' = false)
    (he_rb : chEq ci e rb = false)
    (hpost : ∀ c ∈ post, c ≠ lb) :
    findallRE (.seq (.lit [lb] false) (.seq (.starCls nonBrace)
        (.seq (.lit (qu :: e :: w2 ++ [qu]) ci) (.seq (.starCls isWs) (.seq (.lit [':'] false)
        (.seq (.starCls isWs) (.seq (.lit [qu] false) (.seq (.plusCls nonQuote)
        (.seq (.lit [qu] false) (.seq (.starCls nonBrace) (.lit [rb] false)))))))))))
      (kwObj (e :: w2) X ++ post) = [kwObj (e :: w2) X] := by
  have hm := matchAt_kwPat_obj ci e w2 X post hX hXne hkw_qu hkw_nb he_colon he_rb
  have hS : kwObj (e :: w2) X ++ post =
      lb :: (kwIntro (e :: w2) ++ X ++ qu :: rb :: post) := by
    simp [kwObj]
  have hnz : (kwObj (e :: w2) X).length ≠ 0 := by simp [kwObj]
  rw [findallRE]
  have hlen : (kwObj (e :: w2) X ++ post).length + 1 =
      ((kwIntro (e :: w2) ++ X ++ qu :: rb :: post).length) + 1 + 1 := by
    rw [hS]
    simp
  rw [hlen, hS]
  rw [scanRE_match_step _ _ _ _ _ _ (by rw [← hS]; exact hm) hnz]
  rw [← hS]
  have htake : (kwObj (e :: w2) X ++ post).take (kwObj (e :: w2) X).length =
      kwObj (e :: w2) X := List.take_left _ _
  have hdrop : (kwObj (e :: w2) X ++ post).drop (kwObj (e :: w2) X).length = post :=
    List.drop_left _ _
  rw [htake, hdrop]
  have hfuel : scanRE (.seq (.lit [lb] false) (.seq (.starCls nonBrace)
      (.seq (.lit (qu :: e :: w2 ++ [qu]) ci) (.seq (.starCls isWs) (.seq (.lit [':'] false)
      (.seq (.starCls isWs) (.seq (.lit [qu] false) (.seq (.plusCls nonQuote)
      (.seq (.lit [qu] false) (.seq (.starCls nonBrace) (.lit [rb] false)))))))))))
      ((kwIntro (e :: w2) ++ X ++ qu :: rb :: post).length + 1) post =
      findallRE (.seq (.lit [lb] false) (.seq (.starCls nonBrace)
      (.seq (.lit (qu :: e :: w2 ++ [qu]) ci) (.seq (.starCls isWs) (.seq (.lit [':'] false)
      (.seq (.starCls isWs) (.seq (.lit [qu] false) (.seq (.plusCls nonQuote)
      (.seq (.lit [qu] false) (.seq (.starCls nonBrace) (.lit [rb] false)))))))))))
      post := by
    rw [findallRE]
    apply scanRE_fuel
    · simp
      omega
    · omega
  rw [hfuel, findall_lbPat_nil _ post hpost]
  rfl


/-- String-body parsing crosses a plain region up to the closing quote. -/
theorem parseJStr_plain (X : List Char) : ∀ (acc rest : List Char),
    (∀ c ∈ X, plainChar c = true) →
    parseJStr acc (X ++ qu :: rest) = some (acc.reverse ++ X, rest) := by
  induction X with
  | nil =>
    intro acc rest _
    rw [List.nil_append, parseJStr, if_pos rfl]
    simp
  | cons x X1 ih =>
    intro acc rest hX
    obtain ⟨h1, -, -, -, h5, h6⟩ := plainChar_spec (hX x (by simp))
    rw [List.cons_append, parseJStr, if_neg h1, if_neg h5, if_neg (by omega)]
    rw [ih (x :: acc) rest (fun c hc => hX c (by simp [hc]))]
    simp

/-- A quoted plain string parses as a string value. -/
theorem parseValue_str (X rest : List Char) (hX : ∀ c ∈ X, plainChar c = true)
    (g : Nat) :
    parseValue (g + 1) (qu :: (X ++ qu :: rest)) = some (.str X, rest) := by
  rw [parseValue, if_pos rfl, parseJStr_plain X [] rest hX]
  simp

/-- The members of a rendered one-member object parse to exactly that
member (plain key and value). -/
theorem parseMembers_kwObj (w X : List Char)
    (hw : ∀ c ∈ w, plainChar c = true) (hX : ∀ c ∈ X, plainChar c = true)
    (g : Nat) :
    parseMembers ((g + 1) + 1) [] (kwIntro w ++ (X ++ [qu, rb])) true
      = some (Json.obj [(w, Json.str X)], []) := by
  have h1 : kwIntro w ++ (X ++ [qu, rb])
      = qu :: (w ++ qu :: (':' :: ' ' :: qu :: (X ++ qu :: [rb]))) := by
    simp [kwIntro]
  have h2 := parseJStr_plain w [] (':' :: ' ' :: qu :: (X ++ qu :: [rb])) hw
  have h3 := parseValue_str X [rb] hX g
  have hdw1 : List.dropWhile jsonWs (':' :: ' ' :: qu :: (X ++ qu :: [rb]))
      = ':' :: ' ' :: qu :: (X ++ qu :: [rb]) := by
    rw [List.dropWhile_cons, if_neg (by decide)]
  have hdw2 : List.dropWhile jsonWs (' ' :: qu :: (X ++ qu :: [rb]))
      = qu :: (X ++ qu :: [rb]) := by
    rw [List.dropWhile_cons, if_pos (by decide), List.dropWhile_cons,
      if_neg (by decide)]
  have hdw3 : List.dropWhile jsonWs [rb] = [rb] := by
    rw [List.dropWhile_cons, if_neg (by decide)]
  rw [h1, parseMembers, if_neg (by decide), if_pos rfl]
  simp only [h2, List.reverse_nil, List.nil_append, hdw1, List.head?_cons,
    List.tail_cons, hdw2, if_true]
  rw [h3]
  simp only [hdw3, List.head?_cons, if_true]
  rfl

/-- A rendered one-member object parses as a value to exactly that
object. -/
theorem parseValue_kwObj (w X : List Char)
    (hw : ∀ c ∈ w, plainChar c = true) (hX : ∀ c ∈ X, plainChar c = true)
    (g : Nat) :
    parseValue (((g + 1) + 1) + 1) (kwObj w X)
      = some (Json.obj [(w, Json.str X)], []) := by
  have h0 : kwObj w X = lb :: (kwIntro w ++ (X ++ [qu, rb])) := by
    simp [kwObj]
  have hdw : List.dropWhile jsonWs (kwIntro w ++ (X ++ [qu, rb]))
      = kwIntro w ++ (X ++ [qu, rb]) := by
    have h1 : kwIntro w ++ (X ++ [qu, rb])
        = qu :: (w ++ [qu, ':', ' ', qu] ++ (X ++ [qu, rb])) := by
      simp [kwIntro]
    rw [h1, List.dropWhile_cons, if_neg (by decide)]
  rw [h0, parseValue, if_neg (by decide), if_pos rfl, hdw]
  exact parseMembers_kwObj w X hw hX g

/-- `json.loads` on the rendering of a one-member object with plain key
and string value returns exactly that object. -/
theorem json_loads_kwObj (w X : List Char)
    (hw : ∀ c ∈ w, plainChar c = true) (hX : ∀ c ∈ X, plainChar c = true) :
    json_loads (kwObj w X) = some (Json.obj [(w, Json.str X)]) := by
  have hdw : List.dropWhile jsonWs (kwObj w X) = kwObj w X := by
    have h1 : kwObj w X = lb :: (kwIntro w ++ X ++ [qu, rb]) := by
      simp [kwObj]
    rw [h1, List.dropWhile_cons, if_neg (by decide)]
  have hlen : 2 * (kwObj w X).length + 2
      = (((2 * (kwObj w X).length - 1) + 1) + 1) + 1 := by
    have : 1 ≤ (kwObj w X).length := by simp [kwObj]
    omega
  rw [json_loads]
  simp only [hdw, hlen]
  rw [parseValue_kwObj w X hw hX]
  rfl

/-- `dropWhile` is the identity when the head (if any) fails the
predicate. -/
theorem dropWhile_eq_self_of_head (p : Char → Bool) (s : List Char)
    (h : ∀ c, s.head? = some c → p c = false) : s.dropWhile p = s := by
  cases s with
  | nil => rfl
  | cons a t =>
    rw [List.dropWhile_cons, if_neg]
    simp [h a rfl]

/-- `str.strip()` is the identity when neither end is whitespace. -/
theorem pyStrip_eq_self (s : List Char)
    (h1 : ∀ c, s.head? = some c → isWs c = false)
    (h2 : ∀ c, s.getLast? = some c → isWs c = false) : pyStrip s = s := by
  rw [pyStrip, dropWhile_eq_self_of_head isWs s h1,
    dropWhile_eq_self_of_head]
  · exact List.reverse_reverse s
  · intro c hc
    rw [List.head?_reverse] at hc
    exact h2 c hc

/-- The head of a rendered one-member object is the opening brace. -/
theorem kwObj_head (w X : List Char) : (kwObj w X).head? = some lb := by
  simp [kwObj]

/-- The last character of a rendered one-member object is the closing
brace. -/
theorem kwObj_getLast (w X : List Char) : (kwObj w X).getLast? = some rb := by
  rw [kwObj]
  have h1 : lb :: kwIntro w ++ X ++ [qu, rb]
      = (lb :: kwIntro w ++ X) ++ [qu, rb] := by simp
  rw [h1, List.getLast?_append]
  rfl

/-- Stripping a rendered one-member object changes nothing. -/
theorem pyStrip_kwObj (w X : List Char) : pyStrip (kwObj w X) = kwObj w X := by
  apply pyStrip_eq_self
  · intro c hc
    rw [kwObj_head] at hc
    cases hc
    decide
  · intro c hc
    rw [kwObj_getLast] at hc
    cases hc
    decide

/-- A rendered `"type"` one-member object is accepted by the candidate
filter and returned unchanged. -/
theorem tryCandidate_kwObj_type (X : List Char)
    (hX : ∀ c ∈ X, plainChar c = true) (hne : X ≠ []) :
    tryCandidate (kwObj tWord X) = some (Json.obj [(typeKey, Json.str X)]) := by
  have hjson := json_loads_kwObj tWord X (by decide) hX
  simp only [tryCandidate, pyStrip_kwObj, kwObj_head, hjson, if_true]
  have hget : jGet (Json.obj [(tWord, Json.str X)]) typeKey
      = some (Json.str X) := rfl
  have htr : jTruthy (Json.str X) = true := by
    simp [jTruthy, hne]
  have hnorm : normalizeAction (Json.obj [(tWord, Json.str X)])
      = Json.obj [(tWord, Json.str X)] := rfl
  simp only [hget, pyOr, htr, if_true, hnorm]
  rw [if_pos hne]
  rfl

/-- A rendered `"action"` one-member object is accepted and returned
with the key renamed to `type`. -/
theorem tryCandidate_kwObj_action (X : List Char)
    (hX : ∀ c ∈ X, plainChar c = true) (hne : X ≠ []) :
    tryCandidate (kwObj aWord X) = some (Json.obj [(typeKey, Json.str X)]) := by
  have hjson := json_loads_kwObj aWord X (by decide) hX
  simp only [tryCandidate, pyStrip_kwObj, kwObj_head, hjson, if_true]
  have hgt : jGet (Json.obj [(aWord, Json.str X)]) typeKey = none := rfl
  have hga : jGet (Json.obj [(aWord, Json.str X)]) actionKey
      = some (Json.str X) := rfl
  have hnorm : normalizeAction (Json.obj [(aWord, Json.str X)])
      = Json.obj [(typeKey, Json.str X)] := rfl
  simp only [hgt, hga, pyOr, hnorm]
  rw [if_pos hne]

/-- findall of a keyword pattern over an object keyed by a different
word followed by a brace-free tail is empty: the probe at the object
fails on the wrong key and every later offset lacks a leading brace. -/
theorem findall_kwPat_objWrong_nil (ci : Bool) (e : Char) (w2 : List Char)
    (f : Char) (w1 : List Char) (X post : List Char) (r' : RE)
    (hX : ∀ c ∈ X, plainChar c = true)
    (hw_qu : ∀ c ∈ f :: w1, chEq ci qu c = false)
    (hw_nb : ∀ c ∈ f :: w1, nonBrace c = true)
    (hw2_qu : ∀ c ∈ e :: w2, chEq ci c qu = false)
    (he_colon : chEq ci e ':' = false)
    (he_rb : chEq ci e rb = false)
    (he_f : chEq ci e f = false)
    (hw_lb : ∀ c ∈ f :: w1, c ≠ lb)
    (hpost : ∀ c ∈ post, c ≠ lb) :
    findallRE (.seq (.lit [lb] false) (.seq (.starCls nonBrace)
        (.seq (.lit (qu :: e :: w2 ++ [qu]) ci) (.seq (.starCls isWs)
          (.seq (.lit [':'] false) r')))))
      (kwObj (f :: w1) X ++ post) = [] := by
  apply findallRE_nil_of
  intro i _
  cases i with
  | zero =>
    simpa using matchAt_kwPat_objWrong_none ci e w2 f w1 X post r'
      hX hw_qu hw_nb hw2_qu he_colon he_rb he_f
  | succ n =>
    apply matchAt_lbPat_none
    intro c hc
    have hS : kwObj (f :: w1) X ++ post =
        lb :: ((kwIntro (f :: w1) ++ X ++ [qu, rb]) ++ post) := by
      simp [kwObj]
    rw [hS, List.drop_succ_cons] at hc
    have hmem : c ∈ (kwIntro (f :: w1) ++ X ++ [qu, rb]) ++ post := by
      have := hc
      cases hd : ((kwIntro (f :: w1) ++ X ++ [qu, rb]) ++ post).drop n with
      | nil => rw [hd] at this; simp at this
      | cons a t =>
        rw [hd] at this
        simp only [List.head?_cons, Option.some.injEq] at this
        have ha : a ∈ ((kwIntro (f :: w1) ++ X ++ [qu, rb]) ++ post).drop n := by
          rw [hd]
          exact List.mem_cons_self a t
        rw [this] at ha
        exact List.mem_of_mem_drop ha
    rcases List.mem_append.mp hmem with h | h
    · exact kwObj_tail_no_lb (f :: w1) X hw_lb hX c h
    · exact hpost c h

/-- Pattern (a) in its fully nested form. -/
theorem pat1_eq : pat1 = .seq (.lit [lb] false) (.seq (.starCls nonBrace)
    (.seq (.lit (qu :: 't' :: ['y', 'p', 'e'] ++ [qu]) true)
      (.seq (.starCls isWs) (.seq (.lit [':'] false)
        (.seq (.starCls isWs) (.seq (.lit [qu] false) (.seq (.plusCls nonQuote)
          (.seq (.lit [qu] false)
            (.seq (.starCls nonBrace) (.lit [rb] false)))))))))) := rfl

/-- Pattern (b) in its fully nested form. -/
theorem pat2_eq : pat2 = .seq (.lit [lb] false) (.seq (.starCls nonBrace)
    (.seq (.lit (qu :: 'a' :: ['c', 't', 'i', 'o', 'n'] ++ [qu]) true)
      (.seq (.starCls isWs) (.seq (.lit [':'] false)
        (.seq (.starCls isWs) (.seq (.lit [qu] false) (.seq (.plusCls nonQuote)
          (.seq (.lit [qu] false)
            (.seq (.starCls nonBrace) (.lit [rb] false)))))))))) := rfl

/-- C6 (amended): for every reply built around a non-nested one-member
JSON object whose key is `action` with a non-empty plain string value,
and containing no other brace-delimited object (formalised: no other
brace in the reply), `extract_action` returns an object whose `type`
value is that string and which carries no `action` key.  The proviso
is necessary: the `type` pattern is searched before the `action`
pattern, so a reply that also holds a `\x7b"type": ...\x7d` object
yields that object instead — see the counterexample. -/
theorem c6_action_renamed_to_type (pre X post : List Char)
    (hX : ∀ c ∈ X, plainChar c = true) (hXne : X ≠ [])
    (hpre : ∀ c ∈ pre, c ≠ lb)
    (hpost : ∀ c ∈ post, c ≠ lb) :
    extract_action ⟨pre ++ kwObj aWord X ++ post⟩
      = some (Json.obj [(typeKey, Json.str X)]) ∧
    jGet (Json.obj [(typeKey, Json.str X)]) typeKey = some (Json.str X) ∧
    jHas (Json.obj [(typeKey, Json.str X)]) actionKey = false := by
  have hassoc : pre ++ kwObj aWord X ++ post = pre ++ (kwObj aWord X ++ post) := by
    simp
  have h1 : findallRE pat1 (pre ++ kwObj aWord X ++ post) = [] := by
    rw [hassoc, pat1_eq, findall_lbPat_pre _ pre _ hpre]
    exact findall_kwPat_objWrong_nil true 't' ['y', 'p', 'e'] 'a'
      ['c', 't', 'i', 'o', 'n'] X post _ hX (by decide) (by decide) (by decide)
      (by decide) (by decide) (by decide) (by decide) hpost
  have h2 : findallRE pat2 (pre ++ kwObj aWord X ++ post) = [kwObj aWord X] := by
    rw [hassoc, pat2_eq, findall_lbPat_pre _ pre _ hpre]
    exact findall_kwPat_obj_post true 'a' ['c', 't', 'i', 'o', 'n'] X post
      hX hXne (by decide) (by decide) (by decide) (by decide) hpost
  refine ⟨?_, rfl, rfl⟩
  rw [extract_action]
  have hdata : (String.mk (pre ++ kwObj aWord X ++ post)).data
      = pre ++ kwObj aWord X ++ post := rfl
  rw [hdata, allCandidates, h1, h2]
  simp only [List.nil_append, List.cons_append]
  rw [firstAccepted, tryCandidate_kwObj_action X hX hXne]

/-- Concrete instance of the C6 theorem. -/
theorem c6_witness :
    extract_action ⟨"Sure! ".data ++ kwObj aWord "add_student".data ++ " Done.".data⟩
      = some (Json.obj [(typeKey, Json.str "add_student".data)]) ∧
    jGet (Json.obj [(typeKey, Json.str "add_student".data)]) typeKey
      = some (Json.str "add_student".data) ∧
    jHas (Json.obj [(typeKey, Json.str "add_student".data)]) actionKey = false :=
  c6_action_renamed_to_type "Sure! ".data "add_student".data " Done.".data
    (by decide) (by decide) (by decide) (by decide)

/-- The original C6 fails when the reply also contains a `type`-keyed
object: pattern (a) is searched before pattern (b), so the reply
`\x7b"type": "y"\x7d \x7b"action": "X"\x7d` — which does contain an
`action` object with no `type` key — yields the `type` object with
value `y`, not an object whose `type` is `X`. -/
theorem c6_counterexample :
    extract_action ("\x7b\"type\": \"y\"\x7d \x7b\"action\": \"X\"\x7d")
      = some (Json.obj [(typeKey, Json.str ['y'])]) ∧
    jGet (Json.obj [(typeKey, Json.str ['y'])]) typeKey
      = some (Json.str ['y']) ∧
    (['y'] : List Char) ≠ ['X'] :=
  ⟨rfl, rfl, by decide⟩

/-- Case-sensitive comparison of distinct characters fails. -/
theorem chEq_cs_ne {a b : Char} (h : a ≠ b) : chEq false a b = false := by
  simp [chEq, h]

/-- A head read off a dropped suffix belongs to the list. -/
theorem head_drop_mem {s : List Char} {i : Nat} {c : Char}
    (hc : (s.drop i).head? = some c) : c ∈ s := by
  cases hd : s.drop i with
  | nil => rw [hd] at hc; simp at hc
  | cons a t =>
    rw [hd] at hc
    simp only [List.head?_cons, Option.some.injEq] at hc
    have ha : a ∈ s.drop i := by rw [hd]; exact List.mem_cons_self a t
    rw [hc] at ha
    exact List.mem_of_mem_drop ha

/-- A substitution whose pattern opens with a case-sensitive literal is
the identity on text free of that literal's first character. -/
theorem subAll_headLit_id (c0 : Char) (ps : List Char) (r : RE)
    (repl s : List Char) (h : ∀ c ∈ s, c ≠ c0) :
    subAll (.seq (.lit (c0 :: ps) false) r) repl s = s := by
  apply subAll_id
  intro i _
  apply matchAt_head_lit_none
  intro c hc
  exact chEq_cs_ne fun he => h c (head_drop_mem hc) he.symm

/-- Characters of a one-member object (plain value, backtick-free key)
are never a backtick. -/
theorem kwObj_no_bt (w X : List Char) (hw : ∀ c ∈ w, c ≠ bt)
    (hX : ∀ c ∈ X, plainChar c = true) :
    ∀ c ∈ kwObj w X, c ≠ bt := by
  intro c hc
  have hforms : c = lb ∨ c = qu ∨ c = ':' ∨ c = ' ' ∨ c ∈ w ∨ c ∈ X ∨ c = rb := by
    simp only [kwObj, kwIntro, List.cons_append, List.mem_cons, List.mem_append,
      List.mem_singleton, List.not_mem_nil, or_false] at hc
    tauto
  rcases hforms with h | h | h | h | h | h | h
  · rw [h]; decide
  · rw [h]; decide
  · rw [h]; decide
  · rw [h]; decide
  · exact hw c h
  · exact fun he => by
      have := (plainChar_spec (hX c h)).2.2.2.1
      exact this he
  · rw [h]; decide

/-- Stripping only removes characters. -/
theorem mem_pyStrip {c : Char} {s : List Char} (h : c ∈ pyStrip s) : c ∈ s := by
  rw [pyStrip, List.mem_reverse] at h
  have h1 := (List.dropWhile_sublist _).mem h
  rw [List.mem_reverse] at h1
  exact (List.dropWhile_sublist _).mem h1

/-- A needle with a head absent from the haystack is not contained. -/
theorem containsSeq_false_of_head (c0 : Char) (nd hay : List Char)
    (h : ∀ c ∈ hay, c ≠ c0) : containsSeq (c0 :: nd) hay = false := by
  induction hay with
  | nil => rfl
  | cons a t ih =>
    rw [containsSeq]
    have hne : (c0 == a) = false := by
      simp only [beq_eq_false_iff_ne, ne_eq]
      exact fun he => (h a (by simp)) he.symm
    have hpref : (c0 :: nd).isPrefixOf (a :: t) = false := by
      simp [List.isPrefixOf, hne]
    simp only [hpref, Bool.false_eq_true, if_false]
    exact ih fun c hc => h c (by simp [hc])

/-- Substitution pattern 3 in its fully nested form. -/
theorem sub3_eq : sub3 = .seq (.lit ['\n'] false) (.seq (.starCls isWs)
    (.seq (.lit [lb] false) (.seq (.starCls nonBrace)
      (.seq (.lit (qu :: 't' :: ['y', 'p', 'e'] ++ [qu]) false)
        (.seq (.starCls isWs) (.seq (.lit [':'] false)
          (.seq (.starCls nonBrace) (.seq (.lit [rb] false)
            (.seq (.starCls isWs)
              (.quesCls (fun c => c = '\n'))))))))))) := rfl

/-- An optional element matches emptily when the head cannot satisfy
it. -/
theorem reM_ques_no {β : Type} (p : Char → Bool) (s : List Char)
    (cap : Option (List Char)) (k : List Char → Option (List Char) → Option β)
    (h : ∀ c, s.head? = some c → p c = false) :
    reM (.quesCls p) s cap k = k s cap := by
  cases s with
  | nil => rfl
  | cons c cs =>
    rw [reM, if_neg]
    simp [h c rfl]

/-- Success trace of substitution pattern 3 on a standalone one-member
`type` object: the match consumes the leading newline, the object, and
the trailing newline (the final whitespace star takes the newline, the
optional extra newline matches emptily against the non-whitespace
continuation). -/
theorem reM_sub3_obj {β : Type} (X post : List Char)
    (cap : Option (List Char)) (k : List Char → Option (List Char) → Option β)
    (hX : ∀ c ∈ X, plainChar c = true) (hXne : X ≠ [])
    (hpost : ∀ c, post.head? = some c → isWs c = false)
    (hk : (k post cap).isSome) :
    reM (.seq (.lit ['\n'] false) (.seq (.starCls isWs)
      (.seq (.lit [lb] false) (.seq (.starCls nonBrace)
        (.seq (.lit (qu :: 't' :: ['y', 'p', 'e'] ++ [qu]) false)
          (.seq (.starCls isWs) (.seq (.lit [':'] false)
            (.seq (.starCls nonBrace) (.seq (.lit [rb] false)
              (.seq (.starCls isWs)
                (.quesCls (fun c => c = '\n'))))))))))))
      ('\n' :: (kwObj tWord X ++ '\n' :: post)) cap k = k post cap := by
  have hT : kwObj tWord X ++ '\n' :: post =
      lb :: (kwIntro tWord ++ X ++ qu :: rb :: ('\n' :: post)) := by
    simp [kwObj]
  rw [reM_seq_lit_some _ cap k
    (show litMatch false ['\n'] ('\n' :: (kwObj tWord X ++ '\n' :: post)) =
        some (kwObj tWord X ++ '\n' :: post) from
      litMatch_self false ['\n'] _)]
  rw [hT]
  rw [reM, reM, runCls_cons_neg _ _ _ (by decide), descend, firstSome_singleton]
  simp only [List.drop_zero]
  rw [reM_seq_lit_some _ cap k
    (show litMatch false [lb] (lb :: (kwIntro tWord ++ X ++ qu :: rb :: ('\n' :: post))) =
        some (kwIntro tWord ++ X ++ qu :: rb :: ('\n' :: post)) from
      litMatch_self false [lb] _)]
  -- greedy non-brace star before the "type" literal
  have hall : ∀ c ∈ kwIntro tWord ++ X ++ [qu], nonBrace c = true := by
    intro c hc
    have hforms : c = qu ∨ c = ':' ∨ c = ' ' ∨ c ∈ tWord ∨ c ∈ X := by
      simp only [kwIntro, List.cons_append, List.mem_append, List.mem_cons,
        List.mem_singleton, List.not_mem_nil, or_false] at hc
      tauto
    rcases hforms with h | h | h | h | h
    · rw [h]; decide
    · rw [h]; decide
    · rw [h]; decide
    · simp only [tWord, List.mem_cons, List.mem_singleton, List.not_mem_nil,
        or_false] at h
      rcases h with h | h | h | h <;> (rw [h]; decide)
    · exact nonBrace_of_plain (hX c h)
  have hrun : runCls nonBrace (kwIntro tWord ++ X ++ qu :: rb :: ('\n' :: post)) =
      tWord.length + 6 + X.length := by
    have hintre : kwIntro tWord ++ X ++ qu :: rb :: ('\n' :: post) =
        (kwIntro tWord ++ X ++ [qu]) ++ rb :: ('\n' :: post) := by simp
    rw [hintre, runCls_append_all nonBrace _ _ hall, runCls_cons_neg _ _ _ (by decide)]
    simp [kwIntro]
    omega
  rw [reM, reM, hrun]
  rw [firstSome_descend_bottom _ _ (fun l h1 h2 =>
    probe_kw_none false tWord 't' ['y', 'p', 'e'] X rb ('\n' :: post) _ cap k
      (by decide) hX (by decide)
      (by decide) (by decide) (by decide) (by decide) (by decide) l h1 h2)]
  simp only [List.drop_zero]
  -- the "type" literal consumes the key intro
  have hsplit : kwIntro tWord ++ X ++ qu :: rb :: ('\n' :: post) =
      (qu :: 't' :: ['y', 'p', 'e'] ++ [qu]) ++
        (':' :: ' ' :: qu :: (X ++ qu :: rb :: ('\n' :: post))) := by
    simp [kwIntro, tWord]
  rw [hsplit, reM_seq_lit_some _ cap k (litMatch_self false _ _)]
  -- whitespace star before the colon is empty
  rw [reM, reM, runCls_cons_neg _ _ _ (by decide), descend, firstSome_singleton]
  simp only [List.drop_zero]
  rw [reM_seq_lit_some _ cap k
    (show litMatch false [':'] (':' :: (' ' :: qu :: (X ++ qu :: rb :: ('\n' :: post)))) =
        some (' ' :: qu :: (X ++ qu :: rb :: ('\n' :: post))) from
      litMatch_self false [':'] _)]
  -- greedy non-brace star up to the closing brace
  have hrun8 : runCls nonBrace (' ' :: qu :: (X ++ qu :: rb :: ('\n' :: post))) =
      X.length + 3 := by
    have hs8 : ' ' :: qu :: (X ++ qu :: rb :: ('\n' :: post)) =
        (' ' :: qu :: (X ++ [qu])) ++ rb :: ('\n' :: post) := by simp
    rw [hs8, runCls_append_all nonBrace _ _ (by
      intro c hc
      simp only [List.mem_cons, List.mem_append, List.mem_singleton,
        List.not_mem_nil, or_false] at hc
      rcases hc with h | h | h | h
      · rw [h]; decide
      · rw [h]; decide
      · exact nonBrace_of_plain (hX c h)
      · rw [h]; decide), runCls_cons_neg _ _ _ (by decide)]
    simp

  have hd8 : (' ' :: qu :: (X ++ qu :: rb :: ('\n' :: post))).drop (X.length + 3) =
      rb :: ('\n' :: post) := by
    have hs8 : ' ' :: qu :: (X ++ qu :: rb :: ('\n' :: post)) =
        (' ' :: qu :: (X ++ [qu])) ++ rb :: ('\n' :: post) := by simp
    have hlen : X.length + 3 = (' ' :: qu :: (X ++ [qu])).length := by
      simp
    rw [hs8, hlen, List.drop_left]
  -- the tail of the pattern from the closing brace on
  have hrun9 : runCls isWs ('\n' :: post) = 1 := by
    rw [runCls, if_pos (by decide)]
    cases post with
    | nil => rfl
    | cons c t => rw [runCls_cons_neg _ _ _ (hpost c rfl)]
  have htail :
      reM (.seq (.lit [rb] false) (.seq (.starCls isWs)
        (.quesCls (fun c => c = '\n')))) (rb :: ('\n' :: post)) cap k
      = k post cap := by
    rw [reM_seq_lit_some _ cap k
      (show litMatch false [rb] (rb :: ('\n' :: post)) = some ('\n' :: post) from
        litMatch_self false [rb] _)]
    rw [reM, reM, hrun9, descend, descend]
    rw [firstSome_cons_some (by
      simp only [List.drop_succ_cons, List.drop_zero]
      rw [reM_ques_no _ _ _ _ (fun c hc => by
        have := hpost c hc
        simp only [isWs, Bool.or_eq_false_iff, decide_eq_false_iff_not] at this
        simp only [decide_eq_false_iff_not]
        tauto)]
      exact hk)]
    simp only [List.drop_succ_cons, List.drop_zero]
    rw [reM_ques_no _ _ _ _ (fun c hc => by
      have := hpost c hc
      simp only [isWs, Bool.or_eq_false_iff, decide_eq_false_iff_not] at this
      simp only [decide_eq_false_iff_not]
      tauto)]
  rw [reM, reM, hrun8]
  rw [firstSome_descend_top _ (X.length + 3) (by rw [hd8, htail]; exact hk)]
  rw [hd8]
  exact htail

/-- At a newline followed by a standalone `type` object and another
newline, substitution pattern 3 matches, consuming the object and both
newlines. -/
theorem matchAt_sub3_obj (X post : List Char)
    (hX : ∀ c ∈ X, plainChar c = true) (hXne : X ≠ [])
    (hpost : ∀ c, post.head? = some c → isWs c = false) :
    matchAt sub3 ('\n' :: (kwObj tWord X ++ '\n' :: post)) =
      some ((kwObj tWord X).length + 2, none) := by
  rw [sub3_eq, matchAt,
    reM_sub3_obj X post none _ hX hXne hpost (by simp)]
  have : ('\n' :: (kwObj tWord X ++ '\n' :: post)).length - post.length =
      (kwObj tWord X).length + 2 := by
    simp
    omega
  rw [this]

/-- Substitution pattern 3 on the full family: the object and its two
framing newlines collapse to a single newline; nothing else matches. -/
theorem subAll_sub3_family (pre X post : List Char)
    (hpre : ∀ c ∈ pre, c ≠ '\n')
    (hX : ∀ c ∈ X, plainChar c = true) (hXne : X ≠ [])
    (hpost_nl : ∀ c ∈ post, c ≠ '\n')
    (hpost_ws : ∀ c, post.head? = some c → isWs c = false) :
    subAll sub3 ['\n'] (pre ++ '\n' :: (kwObj tWord X ++ '\n' :: post)) =
      pre ++ '\n' :: post := by
  have hskip : subAll sub3 ['\n'] (pre ++ '\n' :: (kwObj tWord X ++ '\n' :: post)) =
      pre ++ subAll sub3 ['\n'] ('\n' :: (kwObj tWord X ++ '\n' :: post)) := by
    apply subAll_skip
    intro i hi
    rw [sub3_eq]
    apply matchAt_head_lit_none
    intro c hc
    cases hd : pre.drop i with
    | nil =>
      have hle := List.drop_eq_nil_iff.mp hd
      omega
    | cons a t =>
      rw [hd] at hc
      simp only [List.cons_append, List.head?_cons, Option.some.injEq] at hc
      have ha : a ∈ pre := List.mem_of_mem_drop (by rw [hd]; exact List.mem_cons_self a t)
      rw [← hc]
      exact chEq_cs_ne fun he => hpre a ha he.symm
  rw [hskip]
  have hm := matchAt_sub3_obj X post hX hXne hpost_ws
  have hv : ('\n' :: (kwObj tWord X ++ '\n' :: post)) =
      ('\n' :: (kwObj tWord X ++ ['\n'])) ++ post := by simp
  have hstep : subAll sub3 ['\n'] ('\n' :: (kwObj tWord X ++ '\n' :: post)) =
      ['\n'] ++ subAllGo sub3 ['\n']
        ('\n' :: (kwObj tWord X ++ '\n' :: post)).length
        (('\n' :: (kwObj tWord X ++ '\n' :: post)).drop ((kwObj tWord X).length + 2)) := by
    rw [subAll]
    exact subAllGo_match_step sub3 ['\n'] _ _ _ _ _ hm (by omega)
  have hdrop : ('\n' :: (kwObj tWord X ++ '\n' :: post)).drop
      ((kwObj tWord X).length + 2) = post := by
    rw [hv]
    have hlen : (kwObj tWord X).length + 2 =
        ('\n' :: (kwObj tWord X ++ ['\n'])).length := by
      simp
    rw [hlen, List.drop_left]
  have hrest : subAllGo sub3 ['\n']
      ('\n' :: (kwObj tWord X ++ '\n' :: post)).length post = post := by
    have hfl : subAllGo sub3 ['\n']
        ('\n' :: (kwObj tWord X ++ '\n' :: post)).length post =
        subAll sub3 ['\n'] post := by
      rw [subAll]
      apply subAllGo_fuel
      · simp
        omega
      · omega
    rw [hfl, sub3_eq]
    apply subAll_headLit_id
    exact hpost_nl
  rw [hstep, hdrop, hrest]
  rfl

/-- Substitution pattern 4 in its nested form. -/
theorem sub4_eq : sub4 = .seq (.lit ['\n', '\n', '\n'] false)
    (.starCls (fun c => c = '\n')) := rfl

/-- The newline-collapsing substitution is the identity on text with a
single isolated newline. -/
theorem subAll_sub4_single (pre post : List Char)
    (hpre : ∀ c ∈ pre, c ≠ '\n') (hpost : ∀ c ∈ post, c ≠ '\n') :
    subAll sub4 ['\n', '\n'] (pre ++ '\n' :: post) = pre ++ '\n' :: post := by
  rw [sub4_eq]
  apply subAll_id
  intro i _
  rcases Nat.lt_or_ge i (pre.length + 1) with hi | hi
  · rw [List.drop_append_of_le_length (by omega)]
    cases hd : pre.drop i with
    | nil =>
      simp only [List.nil_append]
      rw [matchAt]
      apply reM_seq_lit_none
      rw [litMatch, if_pos (chEq_refl false '\n')]
      exact litMatch_none_of_head false '\n' ['\n'] post fun c2 hc2 =>
        chEq_cs_ne fun he =>
          hpost c2 (@head_drop_mem post 0 c2 (by simpa using hc2)) he.symm
    | cons a t =>
      apply matchAt_head_lit_none
      intro c hc
      simp only [List.cons_append, List.head?_cons, Option.some.injEq] at hc
      have ha : a ∈ pre := List.mem_of_mem_drop (by rw [hd]; exact List.mem_cons_self a t)
      rw [← hc]
      exact chEq_cs_ne fun he => hpre a ha he.symm
  · obtain ⟨j, rfl⟩ : ∃ j, i = (pre.length + 1) + j := ⟨i - (pre.length + 1), by omega⟩
    have hsplit : pre ++ '\n' :: post = (pre ++ ['\n']) ++ post := by simp
    have hlen : pre.length + 1 + j = (pre ++ ['\n']).length + j := by simp
    rw [hsplit, hlen, List.drop_append]
    apply matchAt_head_lit_none
    intro c hc
    exact chEq_cs_ne fun he => hpost c (head_drop_mem hc) he.symm

/-- Substitution pattern 1 in its nested form. -/
theorem sub1_eq : sub1 = .seq (.lit [bt, bt, bt, 'j', 's', 'o', 'n'] false)
    (.seq (.starCls isWs) (.seq (.lit [lb] false) (.seq .lazyStar
      (.seq (.lit [rb] false) (.seq (.starCls isWs)
        (.lit [bt, bt, bt] false)))))) := rfl

/-- Substitution pattern 2 in its nested form. -/
theorem sub2_eq : sub2 = .seq (.lit [bt] false) (.seq (.lit [lb] false)
    (.seq (.plusCls nonTick) (.seq (.lit [rb] false) (.lit [bt] false)))) := rfl

/-- The original C1 fails without the preceding newline: an object at
the start of the reply is extracted, yet the cleaned reply still
contains it (the standalone-line substitution needs a newline before
the brace). -/
theorem c1_counterexample :
    extract_action ("\x7b\"type\": \"x\"\x7d\nOk")
      = some (Json.obj [(typeKey, Json.str ['x'])]) ∧
    containsSeq ("\x7b\"type\": \"x\"\x7d".data)
      (clean_reply ("\x7b\"type\": \"x\"\x7d\nOk")).data = true :=
  ⟨rfl, by decide⟩

/-- Case-insensitive backtick comparison fails against any other
character (no character lower-cases to a backtick). -/
theorem chEq_true_bt_of_ne {c : Char} (h : c ≠ bt) : chEq true bt c = false := by
  simp only [chEq, if_pos, decide_eq_false_iff_not]
  intro he
  have hbt : lowerChar bt = bt := by decide
  rw [hbt] at he
  rw [lowerChar] at he
  by_cases h65 : 65 ≤ c.toNat ∧ c.toNat ≤ 90
  · rw [if_pos h65] at he
    have hv : c.toNat + 32 < 55296 := by omega
    have := congrArg Char.toNat he
    rw [toNat_ofNat_of_lt _ hv] at this
    have hbtn : bt.toNat = 96 := by decide
    omega
  · rw [if_neg h65] at he
    exact h he.symm

/-- findall of a pattern opening with a literal whose first character
matches nowhere is empty. -/
theorem findall_headLit_nil (c0 : Char) (ps : List Char) (ci : Bool) (r : RE)
    (s : List Char) (h : ∀ c ∈ s, chEq ci c0 c = false) :
    findallRE (.seq (.lit (c0 :: ps) ci) r) s = [] := by
  apply findallRE_nil_of
  intro i _
  apply matchAt_head_lit_none
  intro c hc
  exact h c (head_drop_mem hc)

/-- At the outer brace of the nested object, a quoted-keyword pattern
fails: the brace-free star stops at the inner object's opening brace,
and no probe before it begins a quoted keyword. -/
theorem matchAt_nestedOuter_none (e : Char) (w2 : List Char) (r' : RE)
    (V : List Char)
    (he_c : chEq true e 'c' = false) (he_colon : chEq true e ':' = false) :
    matchAt (.seq (.lit [lb] false) (.seq (.starCls nonBrace)
        (.seq (.lit (qu :: e :: w2 ++ [qu]) true) r')))
      (lb :: (childPart ++ (innerObj ++ V))) = none := by
  rw [matchAt]
  rw [reM_seq_lit_some _ none _
    (show litMatch false [lb] (lb :: (childPart ++ (innerObj ++ V))) =
        some (childPart ++ (innerObj ++ V)) from litMatch_self false [lb] _)]
  have hrun : runCls nonBrace (childPart ++ (innerObj ++ V)) = 9 := by
    rw [runCls_append_all nonBrace _ _ (by decide)]
    have hio : innerObj ++ V = lb :: ([qu, 'k', qu, ':', ' ', qu, 'v', qu, rb] ++ V) := by
      simp [innerObj]
    rw [hio, runCls_cons_neg _ _ _ (by decide)]
    rfl
  rw [reM, reM, hrun]
  apply firstSome_none_of_all
  intro l hl
  rw [mem_descend] at hl
  simp only [childPart, List.cons_append, List.nil_append]
  interval_cases l
  · exact reM_kwpat_second_none true e (w2 ++ [qu]) r' 'c' _ none _ he_c
  · simp only [List.drop_succ_cons, List.drop_zero]
    exact reM_kwpat_head_none true _ _ _ none _ fun c hc => by
      simp only [List.head?_cons, Option.some.injEq] at hc
      rw [← hc]; decide
  · simp only [List.drop_succ_cons, List.drop_zero]
    exact reM_kwpat_head_none true _ _ _ none _ fun c hc => by
      simp only [List.head?_cons, Option.some.injEq] at hc
      rw [← hc]; decide
  · simp only [List.drop_succ_cons, List.drop_zero]
    exact reM_kwpat_head_none true _ _ _ none _ fun c hc => by
      simp only [List.head?_cons, Option.some.injEq] at hc
      rw [← hc]; decide
  · simp only [List.drop_succ_cons, List.drop_zero]
    exact reM_kwpat_head_none true _ _ _ none _ fun c hc => by
      simp only [List.head?_cons, Option.some.injEq] at hc
      rw [← hc]; decide
  · simp only [List.drop_succ_cons, List.drop_zero]
    exact reM_kwpat_head_none true _ _ _ none _ fun c hc => by
      simp only [List.head?_cons, Option.some.injEq] at hc
      rw [← hc]; decide
  · simp only [List.drop_succ_cons, List.drop_zero]
    exact reM_kwpat_second_none true e (w2 ++ [qu]) r' ':' _ none _ he_colon
  · simp only [List.drop_succ_cons, List.drop_zero]
    exact reM_kwpat_head_none true _ _ _ none _ fun c hc => by
      simp only [List.head?_cons, Option.some.injEq] at hc
      rw [← hc]; decide
  · simp only [List.drop_succ_cons, List.drop_zero]
    exact reM_kwpat_head_none true _ _ _ none _ fun c hc => by
      simp only [List.head?_cons, Option.some.injEq] at hc
      rw [← hc]; decide
  · simp only [List.drop_succ_cons, List.drop_zero]
    have hio : innerObj ++ V = lb :: ([qu, 'k', qu, ':', ' ', qu, 'v', qu, rb] ++ V) := by
      simp [innerObj]
    rw [hio]
    exact reM_kwpat_head_none true _ _ _ none _ fun c hc => by
      simp only [List.head?_cons, Option.some.injEq] at hc
      rw [← hc]; decide

/-- At the inner object of the nested family, a quoted-keyword pattern
fails: the interior carries no such keyword. -/
theorem matchAt_nestedInner_none (e : Char) (w2 : List Char) (r' : RE)
    (V : List Char)
    (he_k : chEq true e 'k' = false) (he_colon : chEq true e ':' = false)
    (he_v : chEq true e 'v' = false) (he_rb : chEq true e rb = false) :
    matchAt (.seq (.lit [lb] false) (.seq (.starCls nonBrace)
        (.seq (.lit (qu :: e :: w2 ++ [qu]) true) r')))
      (lb :: ([qu, 'k', qu, ':', ' ', qu, 'v', qu, rb] ++ V)) = none := by
  rw [matchAt]
  rw [reM_seq_lit_some _ none _
    (show litMatch false [lb] (lb :: ([qu, 'k', qu, ':', ' ', qu, 'v', qu, rb] ++ V)) =
        some ([qu, 'k', qu, ':', ' ', qu, 'v', qu, rb] ++ V) from
      litMatch_self false [lb] _)]
  have hrun : runCls nonBrace ([qu, 'k', qu, ':', ' ', qu, 'v', qu, rb] ++ V) = 8 := by
    have hsp : ([qu, 'k', qu, ':', ' ', qu, 'v', qu, rb] : List Char) ++ V =
        [qu, 'k', qu, ':', ' ', qu, 'v', qu] ++ (rb :: V) := by simp
    rw [hsp, runCls_append_all nonBrace _ _ (by decide),
      runCls_cons_neg _ _ _ (by decide)]
    rfl
  rw [reM, reM, hrun]
  apply firstSome_none_of_all
  intro l hl
  rw [mem_descend] at hl
  simp only [List.cons_append, List.nil_append]
  interval_cases l
  · exact reM_kwpat_second_none true e (w2 ++ [qu]) r' 'k' _ none _ he_k
  · simp only [List.drop_succ_cons, List.drop_zero]
    exact reM_kwpat_head_none true _ _ _ none _ fun c hc => by
      simp only [List.head?_cons, Option.some.injEq] at hc
      rw [← hc]; decide
  · simp only [List.drop_succ_cons, List.drop_zero]
    exact reM_kwpat_second_none true e (w2 ++ [qu]) r' ':' _ none _ he_colon
  · simp only [List.drop_succ_cons, List.drop_zero]
    exact reM_kwpat_head_none true _ _ _ none _ fun c hc => by
      simp only [List.head?_cons, Option.some.injEq] at hc
      rw [← hc]; decide
  · simp only [List.drop_succ_cons, List.drop_zero]
    exact reM_kwpat_head_none true _ _ _ none _ fun c hc => by
      simp only [List.head?_cons, Option.some.injEq] at hc
      rw [← hc]; decide
  · simp only [List.drop_succ_cons, List.drop_zero]
    exact reM_kwpat_second_none true e (w2 ++ [qu]) r' 'v' _ none _ he_v
  · simp only [List.drop_succ_cons, List.drop_zero]
    exact reM_kwpat_head_none true _ _ _ none _ fun c hc => by
      simp only [List.head?_cons, Option.some.injEq] at hc
      rw [← hc]; decide
  · simp only [List.drop_succ_cons, List.drop_zero]
    exact reM_kwpat_second_none true e (w2 ++ [qu]) r' rb _ none _ he_rb
  · simp only [List.drop_succ_cons, List.drop_zero]
    exact reM_kwpat_head_none true _ _ _ none _ fun c hc => by
      simp only [List.head?_cons, Option.some.injEq] at hc
      rw [← hc]; decide

/-- findall of a quoted-keyword pattern over the nested-object family
is empty: both brace positions fail (outer and inner probes), every
other offset lacks a leading brace. -/
theorem findall_kwPat_nested_nil (e : Char) (w2 : List Char) (r' : RE)
    (X post : List Char)
    (hX : ∀ c ∈ X, plainChar c = true)
    (he_c : chEq true e 'c' = false) (he_colon : chEq true e ':' = false)
    (he_k : chEq true e 'k' = false) (he_v : chEq true e 'v' = false)
    (he_rb : chEq true e rb = false)
    (hpost : ∀ c ∈ post, c ≠ lb) :
    findallRE (.seq (.lit [lb] false) (.seq (.starCls nonBrace)
        (.seq (.lit (qu :: e :: w2 ++ [qu]) true) r')))
      (nestedObj X ++ post) = [] := by
  have hS1 : nestedObj X ++ post =
      [lb] ++ (childPart ++ (innerObj ++
        ([',', ' '] ++ (kwIntro tWord ++ (X ++ ([qu, rb] ++ post)))))) := by
    simp [nestedObj]
  rw [hS1, findallRE_skip _ [lb] _ (by
    intro i hi
    have hi0 : i = 0 := by simpa using hi
    subst hi0
    simpa using matchAt_nestedOuter_none e w2 r' _ he_c he_colon)]
  rw [findall_lbPat_pre _ childPart _ (by decide)]
  have hS2 : innerObj ++
      ([',', ' '] ++ (kwIntro tWord ++ (X ++ ([qu, rb] ++ post)))) =
      [lb] ++ ([qu, 'k', qu, ':', ' ', qu, 'v', qu, rb] ++
        ([',', ' '] ++ (kwIntro tWord ++ (X ++ ([qu, rb] ++ post))))) := by
    simp [innerObj]
  rw [hS2, findallRE_skip _ [lb] _ (by
    intro i hi
    have hi0 : i = 0 := by simpa using hi
    subst hi0
    simpa using matchAt_nestedInner_none e w2 r' _ he_k he_colon he_v he_rb)]
  apply findall_lbPat_nil
  intro c hc he
  subst he
  rcases List.mem_append.mp hc with h | h
  · revert h; decide
  rcases List.mem_append.mp h with h | h
  · revert h; decide
  rcases List.mem_append.mp h with h | h
  · revert h; decide
  rcases List.mem_append.mp h with h | h
  · exact (plainChar_spec (hX lb h)).2.1 rfl
  rcases List.mem_append.mp h with h | h
  · revert h; decide
  · exact hpost lb h rfl

/-- Pattern (c) in its fully nested form. -/
theorem pat3_eq : pat3 = .seq (.lit [bt, bt, bt, 'j', 's', 'o', 'n'] true)
    (.seq (.starCls isWs) (.seq (.grp (.seq (.lit [lb] false)
      (.seq .lazyStar (.lit [rb] false))))
      (.seq (.starCls isWs) (.lit [bt, bt, bt] false)))) := rfl

/-- Pattern (d) in its fully nested form. -/
theorem pat4_eq : pat4 = .seq (.lit [bt] false)
    (.seq (.grp (.seq (.lit [lb] false)
      (.seq (.plusCls nonTick) (.lit [rb] false))))
      (.lit [bt] false)) := rfl

/-- The nested-object family is backtick-free for plain values. -/
theorem nestedObj_no_bt (X : List Char) (hX : ∀ c ∈ X, plainChar c = true) :
    ∀ c ∈ nestedObj X, c ≠ bt := by
  intro c hc he
  subst he
  have hS : nestedObj X =
      ([lb] ++ childPart ++ innerObj ++ [',', ' '] ++ kwIntro tWord) ++
        (X ++ [qu, rb]) := by
    simp [nestedObj]
  rw [hS] at hc
  rcases List.mem_append.mp hc with h | h
  · revert h; decide
  rcases List.mem_append.mp h with h | h
  · exact (plainChar_spec (hX bt h)).2.2.2.1 rfl
  · revert h; decide

/-- C4: a reply whose only action-like object nests one JSON object
inside another (with no code fence and no backtick anywhere) yields no
extracted action: the no-inner-brace patterns cannot span the nesting
and the fence/backtick patterns find nothing. -/
theorem c4_nested_object_extracts_none (pre X post : List Char)
    (hX : ∀ c ∈ X, plainChar c = true)
    (hpre : ∀ c ∈ pre, c ≠ lb ∧ c ≠ bt)
    (hpost : ∀ c ∈ post, c ≠ lb ∧ c ≠ bt) :
    extract_action ⟨pre ++ nestedObj X ++ post⟩ = none := by
  have hassoc : pre ++ nestedObj X ++ post = pre ++ (nestedObj X ++ post) := by
    simp
  have hnball : ∀ c ∈ pre ++ nestedObj X ++ post, c ≠ bt := by
    intro c hc
    rw [hassoc] at hc
    rcases List.mem_append.mp hc with h | h
    · exact (hpre c h).2
    rcases List.mem_append.mp h with h | h
    · exact nestedObj_no_bt X hX c h
    · exact (hpost c h).2
  have h1 : findallRE pat1 (pre ++ nestedObj X ++ post) = [] := by
    rw [hassoc, pat1_eq, findall_lbPat_pre _ pre _ (fun c hc => (hpre c hc).1)]
    exact findall_kwPat_nested_nil 't' ['y', 'p', 'e'] _ X post hX
      (by decide) (by decide) (by decide) (by decide) (by decide)
      (fun c hc => (hpost c hc).1)
  have h2 : findallRE pat2 (pre ++ nestedObj X ++ post) = [] := by
    rw [hassoc, pat2_eq, findall_lbPat_pre _ pre _ (fun c hc => (hpre c hc).1)]
    exact findall_kwPat_nested_nil 'a' ['c', 't', 'i', 'o', 'n'] _ X post hX
      (by decide) (by decide) (by decide) (by decide) (by decide)
      (fun c hc => (hpost c hc).1)
  have h3 : findallRE pat3 (pre ++ nestedObj X ++ post) = [] := by
    rw [pat3_eq]
    exact findall_headLit_nil bt _ true _ _
      (fun c hc => chEq_true_bt_of_ne (hnball c hc))
  have h4 : findallRE pat4 (pre ++ nestedObj X ++ post) = [] := by
    rw [pat4_eq]
    exact findall_headLit_nil bt _ false _ _
      (fun c hc => chEq_cs_ne fun he => hnball c hc he.symm)
  rw [extract_action]
  have hdata : (String.mk (pre ++ nestedObj X ++ post)).data
      = pre ++ nestedObj X ++ post := rfl
  rw [hdata, allCandidates, h1, h2, h3, h4]
  rfl

/-- Concrete instance of the C4 theorem. -/
theorem c4_witness :
    extract_action ⟨"Here: ".data ++ nestedObj "add_x".data ++ " end".data⟩
      = none :=
  c4_nested_object_extracts_none ("Here: ".data) ("add_x".data) (" end".data)
    (by decide) (by decide) (by decide)

/-- The standalone-object substitution is the identity on brace-free
text. -/
theorem subAll_sub3_id_of_no_lb (s : List Char) (h : ∀ c ∈ s, c ≠ lb) :
    subAll sub3 ['\n'] s = s := by
  rw [sub3_eq]
  apply subAll_id
  intro i _
  rw [matchAt]
  cases hd : s.drop i with
  | nil => exact reM_seq_lit_none _ _ _ rfl
  | cons a t =>
    by_cases ha : a = '\n'
    · subst ha
      rw [reM_seq_lit_some _ _ _
        (show litMatch false ['\n'] ('\n' :: t) = some t from
          litMatch_self false ['\n'] t)]
      rw [reM, reM]
      apply firstSome_none_of_all
      intro l _
      apply reM_seq_lit_none
      apply litMatch_none_of_head
      intro c hc
      have hct : c ∈ t := head_drop_mem hc
      have hcs : c ∈ s := by
        apply List.mem_of_mem_drop
        rw [hd]
        exact List.mem_cons_of_mem _ hct
      exact chEq_cs_ne fun he => h c hcs he.symm
    · apply reM_seq_lit_none
      apply litMatch_none_of_head
      intro c hc
      simp only [List.head?_cons, Option.some.injEq] at hc
      rw [← hc]
      exact chEq_cs_ne fun he => ha he.symm

/-- The last element of an append with a non-empty right part. -/
theorem getLast_append_right {l1 l2 : List Char} (h : l2 ≠ []) :
    (l1 ++ l2).getLast? = l2.getLast? := by
  rw [List.getLast?_append]
  cases hgl : l2.getLast? with
  | none =>
    exact absurd (by simpa using hgl) h
  | some c => rfl

/-- C3 (amended): the reply cleaner is idempotent on replies carrying a
single standalone action object (its own output has no further match
of any substitution, so a second pass changes nothing).  On arbitrary
input it is not idempotent: the trailing-newline option of the
standalone-object substitution can consume the newline that introduces
a following standalone object, leaving it for a second pass — see the
counterexample. -/
theorem c3_clean_reply_idempotent_on_family (pre X post : List Char)
    (hX : ∀ c ∈ X, plainChar c = true) (hXne : X ≠ [])
    (hpre : ∀ c ∈ pre, c ≠ lb ∧ c ≠ bt ∧ c ≠ '\n')
    (hpost : ∀ c ∈ post, c ≠ lb ∧ c ≠ bt ∧ c ≠ '\n')
    (hpre_ne : pre ≠ [])
    (hpre_head : ∀ c, pre.head? = some c → isWs c = false)
    (hpost_ne : post ≠ [])
    (hpost_head : ∀ c, post.head? = some c → isWs c = false)
    (hpost_last : ∀ c, post.getLast? = some c → isWs c = false) :
    clean_reply (clean_reply ⟨pre ++ '\n' :: (kwObj tWord X ++ '\n' :: post)⟩)
      = clean_reply ⟨pre ++ '\n' :: (kwObj tWord X ++ '\n' :: post)⟩ := by
  have hstrip : pyStrip (pre ++ '\n' :: post) = pre ++ '\n' :: post := by
    apply pyStrip_eq_self
    · intro c hc
      cases pre with
      | nil => exact absurd rfl hpre_ne
      | cons a t =>
        simp only [List.cons_append, List.head?_cons, Option.some.injEq] at hc
        rw [← hc]
        exact hpre_head a rfl
    · intro c hc
      rw [show pre ++ '\n' :: post = (pre ++ ['\n']) ++ post by simp,
        getLast_append_right hpost_ne] at hc
      exact hpost_last c hc
  have hnb : ∀ c ∈ pre ++ '\n' :: (kwObj tWord X ++ '\n' :: post), c ≠ bt := by
    intro c hc
    simp only [List.mem_append, List.mem_cons] at hc
    rcases hc with h | h | h | h | h
    · exact (hpre c h).2.1
    · rw [h]; decide
    · exact kwObj_no_bt tWord X (by decide) hX c h
    · rw [h]; decide
    · exact (hpost c h).2.1
  have hclean1 : clean_reply ⟨pre ++ '\n' :: (kwObj tWord X ++ '\n' :: post)⟩
      = ⟨pre ++ '\n' :: post⟩ := by
    rw [clean_reply]
    have hdata : (String.mk (pre ++ '\n' :: (kwObj tWord X ++ '\n' :: post))).data
        = pre ++ '\n' :: (kwObj tWord X ++ '\n' :: post) := rfl
    rw [hdata, clean_reply_chars]
    rw [show subAll sub1 [] (pre ++ '\n' :: (kwObj tWord X ++ '\n' :: post)) =
        pre ++ '\n' :: (kwObj tWord X ++ '\n' :: post) from by
      rw [sub1_eq]; exact subAll_headLit_id bt _ _ [] _ hnb]
    rw [show subAll sub2 [] (pre ++ '\n' :: (kwObj tWord X ++ '\n' :: post)) =
        pre ++ '\n' :: (kwObj tWord X ++ '\n' :: post) from by
      rw [sub2_eq]; exact subAll_headLit_id bt _ _ [] _ hnb]
    rw [subAll_sub3_family pre X post (fun c hc => (hpre c hc).2.2) hX hXne
      (fun c hc => (hpost c hc).2.2) hpost_head]
    rw [subAll_sub4_single pre post (fun c hc => (hpre c hc).2.2)
      (fun c hc => (hpost c hc).2.2)]
    rw [hstrip]
  have hnb2 : ∀ c ∈ pre ++ '\n' :: post, c ≠ bt := by
    intro c hc
    simp only [List.mem_append, List.mem_cons] at hc
    rcases hc with h | h | h
    · exact (hpre c h).2.1
    · rw [h]; decide
    · exact (hpost c h).2.1
  have hnlb2 : ∀ c ∈ pre ++ '\n' :: post, c ≠ lb := by
    intro c hc
    simp only [List.mem_append, List.mem_cons] at hc
    rcases hc with h | h | h
    · exact (hpre c h).1
    · rw [h]; decide
    · exact (hpost c h).1
  have hclean2 : clean_reply ⟨pre ++ '\n' :: post⟩ = ⟨pre ++ '\n' :: post⟩ := by
    rw [clean_reply]
    have hdata : (String.mk (pre ++ '\n' :: post)).data = pre ++ '\n' :: post := rfl
    rw [hdata, clean_reply_chars]
    rw [show subAll sub1 [] (pre ++ '\n' :: post) = pre ++ '\n' :: post from by
      rw [sub1_eq]; exact subAll_headLit_id bt _ _ [] _ hnb2]
    rw [show subAll sub2 [] (pre ++ '\n' :: post) = pre ++ '\n' :: post from by
      rw [sub2_eq]; exact subAll_headLit_id bt _ _ [] _ hnb2]
    rw [subAll_sub3_id_of_no_lb _ hnlb2]
    rw [subAll_sub4_single pre post (fun c hc => (hpre c hc).2.2)
      (fun c hc => (hpost c hc).2.2)]
    rw [hstrip]
  rw [hclean1, hclean2]

/-- Concrete instance of the C3 theorem. -/
theorem c3_witness :
    clean_reply (clean_reply ⟨"Sure thing!".data ++ '\n' ::
        (kwObj tWord "add_subject".data ++ '\n' :: "Done.".data)⟩)
      = clean_reply ⟨"Sure thing!".data ++ '\n' ::
        (kwObj tWord "add_subject".data ++ '\n' :: "Done.".data)⟩ :=
  c3_clean_reply_idempotent_on_family ("Sure thing!".data) ("add_subject".data)
    ("Done.".data) (by decide) (by decide) (by decide) (by decide) (by decide)
    (by decide) (by decide) (by decide) (by decide)

/-- On arbitrary input the cleaner is not idempotent: with two stacked
standalone objects, the first substitution consumes the newline that
introduces the second object, so one pass leaves it and a second pass
removes it. -/
theorem c3_counterexample :
    clean_reply (clean_reply
        ("a\n\x7b\"type\": 1\x7d\n\x7b\"type\": 2\x7d\nb"))
      ≠ clean_reply ("a\n\x7b\"type\": 1\x7d\n\x7b\"type\": 2\x7d\nb") := by
  decide

/-- A needle prefixing any suffix is a contained substring. -/
theorem containsSeq_of_prefix_drop (nd : List Char) : ∀ (i : Nat) (s : List Char),
    nd.isPrefixOf (s.drop i) = true → containsSeq nd s = true := by
  intro i
  induction i with
  | zero =>
    intro s h
    cases s with
    | nil =>
      simp only [List.drop_zero] at h
      cases nd with
      | nil => rfl
      | cons a t => simp [List.isPrefixOf] at h
    | cons a t =>
      simp only [List.drop_zero] at h
      rw [containsSeq, if_pos h]
  | succ i ih =>
    intro s h
    cases s with
    | nil =>
      rw [List.drop_nil] at h
      cases nd with
      | nil => rfl
      | cons a t => simp [List.isPrefixOf] at h
    | cons c t =>
      rw [List.drop_succ_cons] at h
      have hrec := ih t h
      rw [containsSeq]
      by_cases hp : nd.isPrefixOf (c :: t) = true
      · rw [if_pos hp]
      · rw [if_neg hp]
        exact hrec

/-- A literal opening with three backticks fails where no three
backticks stand. -/
theorem litMatch_bbb_none (ps t : List Char)
    (h : ([bt, bt, bt] : List Char).isPrefixOf t = false) :
    litMatch false (bt :: bt :: bt :: ps) t = none := by
  cases t with
  | nil => rfl
  | cons a t1 =>
    by_cases ha : bt = a
    · rw [← ha]
      rw [← ha] at h
      rw [litMatch, if_pos (chEq_refl false bt)]
      cases t1 with
      | nil => rfl
      | cons b t2 =>
        by_cases hb : bt = b
        · rw [← hb]
          rw [← hb] at h
          rw [litMatch, if_pos (chEq_refl false bt)]
          cases t2 with
          | nil => rfl
          | cons d t3 =>
            by_cases hd : bt = d
            · rw [← hd] at h
              simp [List.isPrefixOf] at h
            · rw [litMatch, if_neg]
              simp [chEq_cs_ne hd]
        · rw [litMatch, if_neg]
          simp [chEq_cs_ne hb]
    · rw [litMatch, if_neg]
      simp [chEq_cs_ne ha]

/-- The fenced-block substitution is the identity on text holding no
three consecutive backticks. -/
theorem subAll_sub1_id_of_nofence (s : List Char)
    (h : containsSeq [bt, bt, bt] s = false) :
    subAll sub1 [] s = s := by
  rw [sub1_eq]
  apply subAll_id
  intro i _
  rw [matchAt]
  apply reM_seq_lit_none
  apply litMatch_bbb_none
  cases hp : ([bt, bt, bt] : List Char).isPrefixOf (s.drop i) with
  | false => rfl
  | true =>
    have := containsSeq_of_prefix_drop [bt, bt, bt] i s hp
    rw [h] at this
    exact absurd this (by decide)

/-- A backtick-then-brace pattern fails where no backtick is followed
directly by an opening brace. -/
theorem matchAt_btlb_none_sub2 (r : RE) (t : List Char)
    (h : ¬(t.head? = some bt ∧ t.tail.head? = some lb)) :
    matchAt (.seq (.lit [bt] false) (.seq (.lit [lb] false) r)) t = none := by
  cases t with
  | nil => rfl
  | cons a t1 =>
    by_cases ha : a = bt
    · subst ha
      rw [matchAt, reM_seq_lit_some _ none _
        (show litMatch false [bt] (bt :: t1) = some t1 from
          litMatch_self false [bt] t1)]
      apply reM_seq_lit_none
      apply litMatch_none_of_head
      intro c hc
      apply chEq_cs_ne
      intro he
      apply h
      refine ⟨rfl, ?_⟩
      rw [List.tail_cons]
      rw [← he] at hc
      exact hc
    · rw [matchAt]
      apply reM_seq_lit_none
      apply litMatch_none_of_head
      intro c hc
      simp only [List.head?_cons, Option.some.injEq] at hc
      rw [← hc]
      exact chEq_cs_ne fun he => ha he.symm

/-- In the standalone-object family no backtick directly precedes an
opening brace: the only brace follows the separating newline. -/
theorem family_no_btlb (pre X tail : List Char)
    (hpre : ∀ c ∈ pre, c ≠ lb)
    (hX : ∀ c ∈ X, plainChar c = true)
    (htail : ∀ c ∈ tail, c ≠ lb) :
    ∀ i, ¬(((pre ++ '\n' :: (kwObj tWord X ++ tail)).drop i).head? = some bt ∧
      ((pre ++ '\n' :: (kwObj tWord X ++ tail)).drop (i + 1)).head? = some lb) := by
  intro i hcon
  obtain ⟨h1, h2⟩ := hcon
  rcases Nat.lt_or_ge i pre.length with hi | hi
  · rw [List.drop_append_of_le_length (by omega)] at h2
    cases hd : pre.drop (i + 1) with
    | nil =>
      rw [hd] at h2
      simp only [List.nil_append, List.head?_cons, Option.some.injEq] at h2
      exact absurd h2 (by decide)
    | cons a t =>
      rw [hd] at h2
      simp only [List.cons_append, List.head?_cons, Option.some.injEq] at h2
      have ha : a ∈ pre :=
        List.mem_of_mem_drop (by rw [hd]; exact List.mem_cons_self a t)
      exact hpre a ha h2
  · rcases Nat.eq_or_lt_of_le hi with hi2 | hi2
    · rw [← hi2, List.drop_left] at h1
      simp only [List.head?_cons, Option.some.injEq] at h1
      exact absurd h1 (by decide)
    · obtain ⟨j, rfl⟩ : ∃ j, i = pre.length + 1 + j := ⟨i - (pre.length + 1), by omega⟩
      have hs : pre ++ '\n' :: (kwObj tWord X ++ tail) =
          (pre ++ ['\n', lb]) ++ ((kwIntro tWord ++ X ++ [qu, rb]) ++ tail) := by
        simp [kwObj]
      have hlen : pre.length + 1 + j + 1 = (pre ++ ['\n', lb]).length + j := by
        simp
        omega
      rw [hs, hlen, List.drop_append] at h2
      have hm := head_drop_mem h2
      rcases List.mem_append.mp hm with h | h
      · exact kwObj_tail_no_lb tWord X (by decide) hX lb h rfl
      · exact htail lb h rfl

/-- The single-backtick substitution is the identity on the standalone
family, stray backticks notwithstanding. -/
theorem subAll_sub2_id_fam (pre X tail : List Char)
    (hpre : ∀ c ∈ pre, c ≠ lb)
    (hX : ∀ c ∈ X, plainChar c = true)
    (htail : ∀ c ∈ tail, c ≠ lb) :
    subAll sub2 [] (pre ++ '\n' :: (kwObj tWord X ++ tail)) =
      pre ++ '\n' :: (kwObj tWord X ++ tail) := by
  rw [sub2_eq]
  apply subAll_id
  intro i _
  apply matchAt_btlb_none_sub2
  intro hcon
  obtain ⟨h1, h2⟩ := hcon
  refine family_no_btlb pre X tail hpre hX htail i ⟨h1, ?_⟩
  rw [← List.tail_drop]
  exact h2

/-- Success trace of substitution pattern 3 on a standalone one-member
`type` object at the end of the reply: the trailing whitespace star and
optional newline match emptily at end-of-input, so the match consumes
the leading newline and the object. -/
theorem reM_sub3_obj_end {β : Type} (X : List Char)
    (cap : Option (List Char)) (k : List Char → Option (List Char) → Option β)
    (hX : ∀ c ∈ X, plainChar c = true) (hXne : X ≠ [])
    (hk : (k [] cap).isSome) :
    reM (.seq (.lit ['\n'] false) (.seq (.starCls isWs)
      (.seq (.lit [lb] false) (.seq (.starCls nonBrace)
        (.seq (.lit (qu :: 't' :: ['y', 'p', 'e'] ++ [qu]) false)
          (.seq (.starCls isWs) (.seq (.lit [':'] false)
            (.seq (.starCls nonBrace) (.seq (.lit [rb] false)
              (.seq (.starCls isWs)
                (.quesCls (fun c => c = '\n'))))))))))))
      ('\n' :: kwObj tWord X) cap k = k [] cap := by
  have hT : kwObj tWord X =
      lb :: (kwIntro tWord ++ X ++ qu :: rb :: ([] : List Char)) := by
    simp [kwObj]
  rw [reM_seq_lit_some _ cap k
    (show litMatch false ['\n'] ('\n' :: kwObj tWord X) =
        some (kwObj tWord X) from
      litMatch_self false ['\n'] _)]
  rw [hT]
  rw [reM, reM, runCls_cons_neg _ _ _ (by decide), descend, firstSome_singleton]
  simp only [List.drop_zero]
  rw [reM_seq_lit_some _ cap k
    (show litMatch false [lb] (lb :: (kwIntro tWord ++ X ++ qu :: rb :: [])) =
        some (kwIntro tWord ++ X ++ qu :: rb :: []) from
      litMatch_self false [lb] _)]
  have hall : ∀ c ∈ kwIntro tWord ++ X ++ [qu], nonBrace c = true := by
    intro c hc
    have hforms : c = qu ∨ c = ':' ∨ c = ' ' ∨ c ∈ tWord ∨ c ∈ X := by
      simp only [kwIntro, List.cons_append, List.mem_append, List.mem_cons,
        List.mem_singleton, List.not_mem_nil, or_false] at hc
      tauto
    rcases hforms with h | h | h | h | h
    · rw [h]; decide
    · rw [h]; decide
    · rw [h]; decide
    · simp only [tWord, List.mem_cons, List.mem_singleton, List.not_mem_nil,
        or_false] at h
      rcases h with h | h | h | h <;> (rw [h]; decide)
    · exact nonBrace_of_plain (hX c h)
  have hrun : runCls nonBrace (kwIntro tWord ++ X ++ qu :: rb :: []) =
      tWord.length + 6 + X.length := by
    have hintre : kwIntro tWord ++ X ++ qu :: rb :: ([] : List Char) =
        (kwIntro tWord ++ X ++ [qu]) ++ rb :: [] := by simp
    rw [hintre, runCls_append_all nonBrace _ _ hall, runCls_cons_neg _ _ _ (by decide)]
    simp [kwIntro]
    omega
  rw [reM, reM, hrun]
  rw [firstSome_descend_bottom _ _ (fun l h1 h2 =>
    probe_kw_none false tWord 't' ['y', 'p', 'e'] X rb [] _ cap k
      (by decide) hX (by decide)
      (by decide) (by decide) (by decide) (by decide) (by decide) l h1 h2)]
  simp only [List.drop_zero]
  have hsplit : kwIntro tWord ++ X ++ qu :: rb :: ([] : List Char) =
      (qu :: 't' :: ['y', 'p', 'e'] ++ [qu]) ++
        (':' :: ' ' :: qu :: (X ++ qu :: rb :: [])) := by
    simp [kwIntro, tWord]
  rw [hsplit, reM_seq_lit_some _ cap k (litMatch_self false _ _)]
  rw [reM, reM, runCls_cons_neg _ _ _ (by decide), descend, firstSome_singleton]
  simp only [List.drop_zero]
  rw [reM_seq_lit_some _ cap k
    (show litMatch false [':'] (':' :: (' ' :: qu :: (X ++ qu :: rb :: []))) =
        some (' ' :: qu :: (X ++ qu :: rb :: [])) from
      litMatch_self false [':'] _)]
  have hrun8 : runCls nonBrace (' ' :: qu :: (X ++ qu :: rb :: [])) =
      X.length + 3 := by
    have hs8 : ' ' :: qu :: (X ++ qu :: rb :: ([] : List Char)) =
        (' ' :: qu :: (X ++ [qu])) ++ rb :: [] := by simp
    rw [hs8, runCls_append_all nonBrace _ _ (by
      intro c hc
      simp only [List.mem_cons, List.mem_append, List.mem_singleton,
        List.not_mem_nil, or_false] at hc
      rcases hc with h | h | h | h
      · rw [h]; decide
      · rw [h]; decide
      · exact nonBrace_of_plain (hX c h)
      · rw [h]; decide), runCls_cons_neg _ _ _ (by decide)]
    simp
  have hd8 : (' ' :: qu :: (X ++ qu :: rb :: ([] : List Char))).drop (X.length + 3) =
      rb :: [] := by
    have hs8 : ' ' :: qu :: (X ++ qu :: rb :: ([] : List Char)) =
        (' ' :: qu :: (X ++ [qu])) ++ rb :: [] := by simp
    have hlen : X.length + 3 = (' ' :: qu :: (X ++ [qu])).length := by
      simp
    rw [hs8, hlen, List.drop_left]
  have htail :
      reM (.seq (.lit [rb] false) (.seq (.starCls isWs)
        (.quesCls (fun c => c = '\n')))) (rb :: []) cap k
      = k [] cap := by
    rw [reM_seq_lit_some _ cap k
      (show litMatch false [rb] (rb :: ([] : List Char)) = some [] from
        litMatch_self false [rb] _)]
    rw [reM, reM]
    have hrun9 : runCls isWs ([] : List Char) = 0 := rfl
    rw [hrun9, descend, firstSome_singleton]
    simp only [List.drop_zero]
    exact reM_ques_no _ _ _ _ (fun c hc => by simp at hc)
  rw [reM, reM, hrun8]
  rw [firstSome_descend_top _ (X.length + 3) (by rw [hd8, htail]; exact hk)]
  rw [hd8]
  exact htail

/-- At a newline followed by a standalone `type` object ending the
reply, substitution pattern 3 matches, consuming the newline and the
object. -/
theorem matchAt_sub3_obj_end (X : List Char)
    (hX : ∀ c ∈ X, plainChar c = true) (hXne : X ≠ []) :
    matchAt sub3 ('\n' :: kwObj tWord X) =
      some ((kwObj tWord X).length + 1, none) := by
  rw [sub3_eq, matchAt,
    reM_sub3_obj_end X none _ hX hXne (by simp)]
  have hlen : ('\n' :: kwObj tWord X).length - ([] : List Char).length =
      (kwObj tWord X).length + 1 := by
    simp
  rw [hlen]

/-- Substitution pattern 3 on the family ending at the object: the
object and its leading newline collapse to a single newline. -/
theorem subAll_sub3_end (pre X : List Char)
    (hpre : ∀ c ∈ pre, c ≠ '\n')
    (hX : ∀ c ∈ X, plainChar c = true) (hXne : X ≠ []) :
    subAll sub3 ['\n'] (pre ++ '\n' :: kwObj tWord X) = pre ++ ['\n'] := by
  have hskip : subAll sub3 ['\n'] (pre ++ '\n' :: kwObj tWord X) =
      pre ++ subAll sub3 ['\n'] ('\n' :: kwObj tWord X) := by
    apply subAll_skip
    intro i hi
    rw [sub3_eq]
    apply matchAt_head_lit_none
    intro c hc
    cases hd : pre.drop i with
    | nil =>
      have hle := List.drop_eq_nil_iff.mp hd
      omega
    | cons a t =>
      rw [hd] at hc
      simp only [List.cons_append, List.head?_cons, Option.some.injEq] at hc
      have ha : a ∈ pre :=
        List.mem_of_mem_drop (by rw [hd]; exact List.mem_cons_self a t)
      rw [← hc]
      exact chEq_cs_ne fun he => hpre a ha he.symm
  rw [hskip]
  have hm := matchAt_sub3_obj_end X hX hXne
  have hstep : subAll sub3 ['\n'] ('\n' :: kwObj tWord X) =
      ['\n'] ++ subAllGo sub3 ['\n'] ('\n' :: kwObj tWord X).length
        (('\n' :: kwObj tWord X).drop ((kwObj tWord X).length + 1)) := by
    rw [subAll]
    exact subAllGo_match_step sub3 ['\n'] _ _ _ _ _ hm (by omega)
  have hdrop : ('\n' :: kwObj tWord X).drop ((kwObj tWord X).length + 1) = [] := by
    rw [List.drop_succ_cons, List.drop_length]
  have hrest : subAllGo sub3 ['\n'] ('\n' :: kwObj tWord X).length [] = [] := by
    have hl : ('\n' :: kwObj tWord X).length = (kwObj tWord X).length + 1 := by
      simp
    rw [hl, subAllGo]
    have hm0 : matchAt sub3 [] = none := by
      rw [sub3_eq, matchAt]
      exact reM_seq_lit_none _ _ _ rfl
    simp [hm0]
  rw [hstep, hdrop, hrest]
  simp

/-- C1 (amended): for every reply holding a single well-formed,
non-nested `type` object on its own line — preceded by a newline and
followed by a newline or the end of the reply — with no other brace,
no code fence (no three consecutive backticks) and no other newline
around it, `extract_action` returns exactly the parsed object and
`clean_reply` removes its rendering from the reply.  (The preceding
newline is necessary: the cleaning pattern for standalone objects
requires it, so an object at the start of the reply is extracted but
not removed — see the counterexample.) -/
theorem c1_extract_and_clean (pre X tail : List Char)
    (hX : ∀ c ∈ X, plainChar c = true) (hXne : X ≠ [])
    (hpre : ∀ c ∈ pre, c ≠ lb ∧ c ≠ '\n')
    (hfence : containsSeq [bt, bt, bt]
      (pre ++ '\n' :: (kwObj tWord X ++ tail)) = false)
    (htail : tail = [] ∨ ∃ p, tail = '\n' :: p ∧
      (∀ c ∈ p, c ≠ lb ∧ c ≠ '\n') ∧
      (∀ c, p.head? = some c → isWs c = false)) :
    extract_action ⟨pre ++ '\n' :: (kwObj tWord X ++ tail)⟩
      = some (Json.obj [(typeKey, Json.str X)]) ∧
    containsSeq (kwObj tWord X)
      (clean_reply ⟨pre ++ '\n' :: (kwObj tWord X ++ tail)⟩).data = false := by
  have htail_lb : ∀ c ∈ tail, c ≠ lb := by
    rcases htail with h | ⟨p, hp_eq, hp, _⟩
    · rw [h]
      intro c hc
      simp at hc
    · rw [hp_eq]
      intro c hc
      rcases List.mem_cons.mp hc with h | h
      · rw [h]; decide
      · exact (hp c h).1
  constructor
  · have hassoc : pre ++ '\n' :: (kwObj tWord X ++ tail) =
        (pre ++ ['\n']) ++ (kwObj tWord X ++ tail) := by simp
    have h1 : findallRE pat1 (pre ++ '\n' :: (kwObj tWord X ++ tail)) =
        [kwObj tWord X] := by
      rw [hassoc, pat1_eq, findall_lbPat_pre _ (pre ++ ['\n']) _ (by
        intro c hc
        rcases List.mem_append.mp hc with h | h
        · exact (hpre c h).1
        · simp only [List.mem_singleton] at h
          rw [h]; decide)]
      exact findall_kwPat_obj_post true 't' ['y', 'p', 'e'] X tail
        hX hXne (by decide) (by decide) (by decide) (by decide) htail_lb
    rw [extract_action]
    have hdata : (String.mk (pre ++ '\n' :: (kwObj tWord X ++ tail))).data
        = pre ++ '\n' :: (kwObj tWord X ++ tail) := rfl
    rw [hdata, allCandidates, h1]
    simp only [List.cons_append]
    rw [firstAccepted, tryCandidate_kwObj_type X hX hXne]
  · have h1 : subAll sub1 [] (pre ++ '\n' :: (kwObj tWord X ++ tail)) =
        pre ++ '\n' :: (kwObj tWord X ++ tail) :=
      subAll_sub1_id_of_nofence _ hfence
    have h2 : subAll sub2 [] (pre ++ '\n' :: (kwObj tWord X ++ tail)) =
        pre ++ '\n' :: (kwObj tWord X ++ tail) :=
      subAll_sub2_id_fam pre X tail (fun c hc => (hpre c hc).1) hX htail_lb
    rcases htail with hend | ⟨p, hp_eq, hp, hp_ws⟩
    · subst hend
      have h3 : subAll sub3 ['\n'] (pre ++ '\n' :: (kwObj tWord X ++ [])) =
          pre ++ ['\n'] := by
        rw [List.append_nil]
        exact subAll_sub3_end pre X (fun c hc => (hpre c hc).2) hX hXne
      have h4 : subAll sub4 ['\n', '\n'] (pre ++ ['\n']) = pre ++ ['\n'] :=
        subAll_sub4_single pre [] (fun c hc => (hpre c hc).2)
          (by intro c hc; simp at hc)
      have hclean : (clean_reply ⟨pre ++ '\n' :: (kwObj tWord X ++ [])⟩).data
          = pyStrip (pre ++ ['\n']) := by
        rw [clean_reply]
        have hdata : (String.mk (pre ++ '\n' :: (kwObj tWord X ++ []))).data
            = pre ++ '\n' :: (kwObj tWord X ++ []) := rfl
        rw [hdata, clean_reply_chars, h1, h2, h3, h4]
      rw [hclean]
      have hkw : kwObj tWord X = lb :: (kwIntro tWord ++ X ++ [qu, rb]) := by
        simp [kwObj]
      rw [hkw]
      apply containsSeq_false_of_head
      intro c hc
      have hm := mem_pyStrip hc
      rcases List.mem_append.mp hm with h | h
      · exact (hpre c h).1
      · simp only [List.mem_singleton] at h
        rw [h]; decide
    · subst hp_eq
      have h3 : subAll sub3 ['\n'] (pre ++ '\n' :: (kwObj tWord X ++ '\n' :: p)) =
          pre ++ '\n' :: p :=
        subAll_sub3_family pre X p (fun c hc => (hpre c hc).2) hX hXne
          (fun c hc => (hp c hc).2) hp_ws
      have h4 : subAll sub4 ['\n', '\n'] (pre ++ '\n' :: p) = pre ++ '\n' :: p :=
        subAll_sub4_single pre p (fun c hc => (hpre c hc).2)
          (fun c hc => (hp c hc).2)
      have hclean : (clean_reply ⟨pre ++ '\n' :: (kwObj tWord X ++ '\n' :: p)⟩).data
          = pyStrip (pre ++ '\n' :: p) := by
        rw [clean_reply]
        have hdata : (String.mk (pre ++ '\n' :: (kwObj tWord X ++ '\n' :: p))).data
            = pre ++ '\n' :: (kwObj tWord X ++ '\n' :: p) := rfl
        rw [hdata, clean_reply_chars, h1, h2, h3, h4]
      rw [hclean]
      have hkw : kwObj tWord X = lb :: (kwIntro tWord ++ X ++ [qu, rb]) := by
        simp [kwObj]
      rw [hkw]
      apply containsSeq_false_of_head
      intro c hc
      have hm := mem_pyStrip hc
      simp only [List.mem_append, List.mem_cons] at hm
      rcases hm with h | h | h
      · exact (hpre c h).1
      · rw [h]; decide
      · exact (hp c h).1

/-- Concrete instance of the C1 theorem (trailing-newline form). -/
theorem c1_witness :
    extract_action ⟨"Sure thing!".data ++ '\n' ::
        (kwObj tWord "add_subject".data ++ '\n' :: "Done.".data)⟩
      = some (Json.obj [(typeKey, Json.str "add_subject".data)]) ∧
    containsSeq (kwObj tWord "add_subject".data)
      (clean_reply ⟨"Sure thing!".data ++ '\n' ::
        (kwObj tWord "add_subject".data ++ '\n' :: "Done.".data)⟩).data = false :=
  c1_extract_and_clean ("Sure thing!".data) ("add_subject".data)
    ('\n' :: "Done.".data) (by decide) (by decide) (by decide) (by decide)
    (Or.inr ⟨"Done.".data, rfl, by decide, by decide⟩)
